import Mathlib

set_option maxRecDepth 4000

namespace TestTime

/-!  Shallow embedding of the Test-time proof-search control plane.

Python strings are modelled as Lean `String`s (lists of characters); the
regular expressions used by the repository are modelled by dedicated
scanners.  `\w` is modelled as ASCII alphanumerics plus underscore, `\s`
as the Python whitespace characters.  All scanners take explicit fuel and
recurse structurally, so that every definition evaluates by `decide`. -/

def isWordChar (c : Char) : Bool := c.isAlphanum || c == '_'

def isSpaceChar (c : Char) : Bool :=
  c == ' ' || c == '\t' || c == '\n' || c == '\r' || c == '\x0b' || c == '\x0c'

/-- Characters allowed in a declaration name by the pattern `[\w\.]+`. -/
def isNameChar (c : Char) : Bool := isWordChar c || c == '.'

/-- Python `str.lstrip()` on a character list. -/
def lstripL (s : List Char) : List Char := s.dropWhile isSpaceChar

/-- Python `str.rstrip()` on a character list. -/
def rstripL (s : List Char) : List Char := (s.reverse.dropWhile isSpaceChar).reverse

def stripL (s : List Char) : List Char := rstripL (lstripL s)

/-- Python `str.strip()`. -/
def stripPy (s : String) : String := ⟨stripL s.data⟩

/-- Python `str.rstrip()`. -/
def rstripPy (s : String) : String := ⟨rstripL s.data⟩

def splitChAux (c : Char) : List Char → List Char → List (List Char)
  | [], acc => [acc.reverse]
  | d :: rest, acc =>
    if d == c then acc.reverse :: splitChAux c rest []
    else splitChAux c rest (d :: acc)

/-- Python `str.split(c)` for a one-character separator. -/
def splitCh (c : Char) (s : List Char) : List (List Char) := splitChAux c s []

/-- Python `code.split(chr(10))`, used by `ProofAnalysis` to obtain `self.lines`. -/
def splitNl (s : String) : List String := (splitCh '\n' s.data).map (⟨·⟩)

def joinNlL : List (List Char) → List Char
  | [] => []
  | [x] => x
  | x :: y :: rest => x ++ '\n' :: joinNlL (y :: rest)

/-- Python `chr(10).join(lines)`. -/
def joinNl (ls : List String) : String := ⟨joinNlL (ls.map String.data)⟩

/-- Python `sep.join(parts)` for a general separator. -/
def joinSep (sep : String) : List String → String
  | [] => ""
  | [x] => x
  | x :: y :: rest => x ++ sep ++ joinSep sep (y :: rest)

/-- Python `str.splitlines()` restricted to newline-separated input: like
`split` but without the final empty piece produced by a trailing newline. -/
def splitlinesPy (s : String) : List String :=
  if s = "" then []
  else
    let ps := splitNl s
    if ps.getLast? = some "" then ps.dropLast else ps

/-- Python `s.startswith(p)`. -/
def startsWithPy (p s : String) : Bool := p.data.isPrefixOf s.data

def findSubAux (pat : List Char) : List Char → Nat → Option Nat
  | [], i => if pat.isEmpty then some i else none
  | s@(_ :: rest), i => if pat.isPrefixOf s then some i else findSubAux pat rest (i + 1)

/-- Python `s.find(pat)` (index of the first occurrence). -/
def findSub (pat s : String) : Option Nat := findSubAux pat.data s.data 0

/-- Python `needle in hay` on strings. -/
def containsSub (needle hay : String) : Bool := (findSub needle hay).isSome

def rfindSubAux (pat : List Char) : List Char → Nat → Option Nat → Option Nat
  | [], i, best => if pat.isEmpty then some i else best
  | s@(_ :: rest), i, best =>
    rfindSubAux pat rest (i + 1) (if pat.isPrefixOf s then some i else best)

/-- Python `s.rfind(pat)` (index of the last occurrence). -/
def rfindSub (pat s : String) : Option Nat := rfindSubAux pat.data s.data 0 none

/-- Python `s.split(sep, 1)` when `sep` occurs in `s`. -/
def splitOnce (sep s : String) : Option (String × String) :=
  match findSub sep s with
  | none => none
  | some i => some (⟨s.data.take i⟩, ⟨s.data.drop (i + sep.data.length)⟩)

/-- Python `s.replace(old, new, 1)`. -/
def replaceFirst (s old new : String) : String :=
  match findSub old s with
  | none => s
  | some i => ⟨s.data.take i ++ new.data ++ s.data.drop (i + old.data.length)⟩

/-- Decimal digit character, `chr(48 + n)`. -/
def digitChar (n : Nat) : Char := Char.ofNat (48 + n)

def natToDecAux : Nat → Nat → List Char
  | 0, _ => []
  | fuel + 1, n =>
    if n < 10 then [digitChar n]
    else natToDecAux fuel (n / 10) ++ [digitChar (n % 10)]

/-- Python `str(n)` for a natural number (decimal). -/
def natToDec (n : Nat) : String := ⟨natToDecAux (n + 1) n⟩

/-- Value of a decimal digit string, used to invert `natToDec`. -/
def decVal (l : List Char) : Nat := l.foldl (fun a c => a * 10 + (c.toNat - 48)) 0

/-! ### Declaration keywords and the declaration-line pattern -/

inductive DeclKind
  | axm
  | lem
  | thm
  | dfn
deriving DecidableEq, Repr

def kwString : DeclKind → String
  | .axm => "axiom"
  | .lem => "lemma"
  | .thm => "theorem"
  | .dfn => "def"

/-- Try the alternation `(axiom|lemma|theorem|def)` at the head of `s`.
No keyword is a prefix of another, so first-match semantics are exact. -/
def matchKw (s : List Char) : Option (DeclKind × List Char) :=
  if ("axiom".data).isPrefixOf s then some (.axm, s.drop 5)
  else if ("lemma".data).isPrefixOf s then some (.lem, s.drop 5)
  else if ("theorem".data).isPrefixOf s then some (.thm, s.drop 7)
  else if ("def".data).isPrefixOf s then some (.dfn, s.drop 3)
  else none

/-- `re.match(declaration_pattern, line)` for
`declaration_pattern = ^\s*(axiom|lemma|theorem|def)\s+([\w\.]+)`:
returns the keyword and the captured name. -/
def matchDecl (line : String) : Option (DeclKind × String) :=
  let s := line.data.dropWhile isSpaceChar
  match matchKw s with
  | none => none
  | some (k, rest) =>
    let sp := rest.takeWhile isSpaceChar
    if sp.isEmpty then none
    else
      let rest2 := rest.dropWhile isSpaceChar
      let nm := rest2.takeWhile isNameChar
      if nm.isEmpty then none else some (k, ⟨nm⟩)

/-! ### `\b`-anchored word search and substitution (`re.search`, `re.sub`) -/

def isWordB : Option Char → Bool
  | none => false
  | some c => isWordChar c

/-- A `\b` boundary holds between adjacent characters `a` and `b`
(`none` = out of range) iff exactly one side is a word character. -/
def isBoundary (a b : Option Char) : Bool := isWordB a != isWordB b

/-- Does `\b ++ pat ++ \b` match at the head of `s`, where the character
before `s` has wordness `prevW`? -/
def wordAtHere (pat : List Char) (prevW : Bool) (s : List Char) : Bool :=
  pat.isPrefixOf s &&
  (prevW != isWordB pat.head?) &&
  (isBoundary pat.getLast? (s.drop pat.length).head?)

/-- `re.search(r'\b' + pat + r'\b', text)` as a left-to-right scan. -/
def wordSearchAux (pat : List Char) : Bool → List Char → Bool
  | prevW, [] => wordAtHere pat prevW []
  | prevW, c :: t => wordAtHere pat prevW (c :: t) || wordSearchAux pat (isWordChar c) t

def wordSearch (pat text : String) : Bool := wordSearchAux pat.data false text.data

/-- `re.sub(r'\b' + old + r'\b', new, text)`: non-overlapping left-to-right
replacement; boundaries are evaluated on the original text, and the scan
resumes after each match. -/
def wordSubAux (old new : List Char) : Nat → Bool → List Char → List Char
  | 0, _, rest => rest
  | fuel + 1, prevW, rest =>
    if wordAtHere old prevW rest then
      new ++ wordSubAux old new fuel (isWordB old.getLast?) (rest.drop old.length)
    else
      match rest with
      | [] => []
      | c :: t => c :: wordSubAux old new fuel (isWordChar c) t

def wordSub (old new text : String) : String :=
  ⟨wordSubAux old.data new.data (text.data.length + 1) false text.data⟩

def kwLen (k : DeclKind) : Nat := (kwString k).data.length

/-- Try `\s*(axiom|lemma|theorem|def)\s+ ++ old ++ \b` at the head of `s`;
return the keyword and the length of the matched span. -/
def declHereLen (old : List Char) (s : List Char) : Option (DeclKind × Nat) :=
  let ws := s.takeWhile isSpaceChar
  let s1 := s.drop ws.length
  match matchKw s1 with
  | none => none
  | some (k, rest) =>
    let sp := rest.takeWhile isSpaceChar
    if sp.isEmpty then none
    else
      let rest2 := rest.drop sp.length
      if old.isPrefixOf rest2 && isBoundary old.getLast? (rest2.drop old.length).head? then
        some (k, ws.length + kwLen k + sp.length + old.length)
      else none

/-- `re.sub(r'^\s*(axiom|lemma|theorem|def)\s+' + old + r'\b', r'\1 ' + new, text, flags=re.MULTILINE)`:
matches may start only at the string start or just after a newline. -/
def subDeclAux (old new : List Char) : Nat → Bool → List Char → List Char
  | 0, _, rest => rest
  | fuel + 1, atLS, rest =>
    match (if atLS then declHereLen old rest else none) with
    | some (k, len) =>
      (kwString k).data ++ [' '] ++ new ++ subDeclAux old new fuel false (rest.drop len)
    | none =>
      match rest with
      | [] => []
      | c :: t => c :: subDeclAux old new fuel (c == '\n') t

def subDeclPattern (old new text : String) : String :=
  ⟨subDeclAux old.data new.data (text.data.length + 1) true text.data⟩

/-- `ProofAnalysis._rename_declaration_in_text`: first rewrite the
declaration head, then every remaining whole-word reference. -/
def rename_declaration_in_text (text old new : String) : String :=
  wordSub old new (subDeclPattern old new text)

/-! ### Compilation results and the child protocol (`verify_lean4_file`) -/

structure LeanMessage where
  severity : String
  data : String
deriving DecidableEq, Repr

/-- The parsed JSON reply of the Lean REPL. -/
structure ReplReply where
  messages : List LeanMessage
  sorries : List String
deriving DecidableEq, Repr

/-- The dictionary built by `verify_lean4_file`; on the exception path the
`errors` and `sorries` keys are absent, modelled by `none`. -/
structure CompilationResult where
  pass : Bool
  complete : Bool
  errors : Option (List LeanMessage)
  sorries : Option (List String)
  system_errors : Option String
  system_messages : Option String
  verified_by : Option String
deriving DecidableEq, Repr

/-- `verify_lean4_file`: a successful REPL run yields a parsed `ReplReply`;
any exception (subprocess failure, timeout, JSON decode error) is the
`.error` case carrying the traceback string. -/
def verify_lean4_file (outcome : Except String ReplReply) : CompilationResult :=
  match outcome with
  | .ok reply =>
    let errs := reply.messages.filter (fun m => m.severity == "error")
    { pass := errs.isEmpty
      complete := errs.isEmpty && reply.sorries.isEmpty
      errors := some errs
      sorries := some reply.sorries
      system_errors := none
      system_messages := none
      verified_by := none }
  | .error tb =>
    { pass := false
      complete := false
      errors := none
      sorries := none
      system_errors := some tb
      system_messages := some ""
      verified_by := none }

/-! ### The inference scheduler queue (`asyncio.PriorityQueue` over
`(priority, count, task_data, future)`) -/

structure InfTask where
  priority : Int
  seq : Nat
  payload : String
deriving DecidableEq, Repr

/-- The heap order on queue entries: lexicographic on `(priority, count)`. -/
def keyLE (a b : InfTask) : Bool :=
  decide (a.priority < b.priority) ||
    (a.priority == b.priority && decide (a.seq ≤ b.seq))

def keyLT (a b : InfTask) : Bool :=
  decide (a.priority < b.priority) ||
    (a.priority == b.priority && decide (a.seq < b.seq))

structure SchedState where
  queue : List InfTask
  counter : Nat
deriving Repr

/-- `InferenceSchedulerService.inference`: put `(priority, self._task_counter, …)`
on the queue, then increment the counter. -/
def submitTask (st : SchedState) (priority : Int) (payload : String) : SchedState :=
  { queue := st.queue ++ [⟨priority, st.counter, payload⟩], counter := st.counter + 1 }

/-- The minimal `(priority, count)` entry among `t :: rest`: what the heap pops. -/
def selectMin (t : InfTask) : List InfTask → InfTask
  | [] => t
  | u :: rest => if keyLE t u then selectMin t rest else selectMin u rest

/-- One worker dequeue: pop the heap minimum. -/
def dequeueMin (q : List InfTask) : Option (InfTask × List InfTask) :=
  match q with
  | [] => none
  | t :: rest =>
    let m := selectMin t rest
    some (m, q.erase m)

def dispatchAux : Nat → List InfTask → List InfTask
  | 0, _ => []
  | fuel + 1, q =>
    match dequeueMin q with
    | none => []
    | some (m, rest) => m :: dispatchAux fuel rest

/-- The order in which the waiting tasks are dispatched when no further
submissions arrive: repeatedly pop the heap minimum. -/
def dispatchOrder (q : List InfTask) : List InfTask := dispatchAux q.length q

/-! ### The tenacity retry policy of the schedulers -/

inductive UpstreamError
  | transport (msg : String)
  | httpStatus (code : Nat)
deriving DecidableEq, Repr

/-- `retry_if_exception_type(httpx.RequestError)`: only transport errors
are retryable. -/
def isTransient : UpstreamError → Bool
  | .transport _ => true
  | .httpStatus _ => false

/-- The exception object that reaches the worker (and hence the future):
either the original exception re-raised unchanged, or a
`tenacity.RetryError` wrapping the last attempt. -/
inductive RaisedError
  | orig (e : UpstreamError)
  | retryError (last : UpstreamError)
deriving DecidableEq, Repr

def retryCallAux (stopAfter : Nat) (att : Nat → Except UpstreamError String) :
    Nat → Nat → Except RaisedError String × Nat
  | fuel, k =>
    match att k with
    | .ok r => (.ok r, k)
    | .error e =>
      if !isTransient e then (.error (.orig e), k)
      else if stopAfter ≤ k then (.error (.retryError e), k)
      else
        match fuel with
        | 0 => (.error (.retryError e), k)
        | fuel' + 1 => retryCallAux stopAfter att fuel' (k + 1)

/-- The tenacity combinator
`@retry(stop=stop_after_attempt(n), retry=retry_if_exception_type(httpx.RequestError))`:
the first attempt always runs; a non-transient failure is re-raised
unchanged; a transient failure is retried until the stop condition, which
raises `RetryError` (the default `reraise=False`).  Returns the outcome and
the number of attempts made. -/
def retryCall (stopAfter : Nat) (att : Nat → Except UpstreamError String) :
    Except RaisedError String × Nat :=
  retryCallAux stopAfter att stopAfter 1

/-- `InferenceSchedulerService._make_api_call` is decorated with
`stop_after_attempt(0)`. -/
def inference_make_api_call (att : Nat → Except UpstreamError String) :
    Except RaisedError String × Nat :=
  retryCall 0 att

/-- `CompilationSchedulerService._make_api_call` is decorated with
`stop_after_attempt(1)`. -/
def compilation_make_api_call (att : Nat → Except UpstreamError String) :
    Except RaisedError String × Nat :=
  retryCall 1 att

/-- The inference worker body: on success the future is resolved with the
result, otherwise with the exception raised by `_make_api_call`. -/
def workerFutureResult (att : Nat → Except UpstreamError String) :
    Except RaisedError String :=
  (inference_make_api_call att).1

/-! ### Lightweight output processing (`lightweight_utils.py`) -/

def removeCommentsAux : Nat → Nat → Bool → List Char → List Char
  | 0, _, _, _ => []
  | fuel + 1, nesting, inSingle, s =>
    if nesting > 0 then
      match s with
      | '/' :: '-' :: t => removeCommentsAux fuel (nesting + 1) inSingle t
      | '-' :: '/' :: t => removeCommentsAux fuel (nesting - 1) inSingle t
      | _ :: t => removeCommentsAux fuel nesting inSingle t
      | [] => []
    else if inSingle then
      match s with
      | '\n' :: t => '\n' :: removeCommentsAux fuel 0 false t
      | _ :: t => removeCommentsAux fuel 0 true t
      | [] => []
    else
      match s with
      | '/' :: '-' :: t => removeCommentsAux fuel 1 false t
      | '-' :: '-' :: t => removeCommentsAux fuel 0 true t
      | c :: t => c :: removeCommentsAux fuel 0 false t
      | [] => []

/-- `remove_lean_comments`: strip `--` and nested block comments. -/
def remove_lean_comments (s : String) : String :=
  ⟨removeCommentsAux (s.data.length + 1) 0 false s.data⟩

/-- One position of `re.search(r'\b(axiom|lemma|theorem)\b', proof)`. -/
def stmtKwAtHere (prevW : Bool) (s : List Char) : Bool :=
  wordAtHere "axiom".data prevW s || wordAtHere "lemma".data prevW s ||
    wordAtHere "theorem".data prevW s

def findStmtKwAux : Bool → List Char → Nat → Option Nat
  | _, [], _ => none
  | prevW, s@(c :: t), i =>
    if stmtKwAtHere prevW s then some i else findStmtKwAux (isWordChar c) t (i + 1)

/-- `split_proof_at_first_statement`: split at the first whole-word
`axiom`/`lemma`/`theorem`. -/
def split_proof_at_first_statement (proof : String) : String × String :=
  match findStmtKwAux false proof.data 0 with
  | some i => (⟨proof.data.take i⟩, ⟨proof.data.drop i⟩)
  | none => (proof, "")

/-- `remove_imports_from_proof`. -/
def remove_imports_from_proof (proof : String) : String :=
  stripPy (split_proof_at_first_statement proof).2

/-- `kw + kw.join(s.split(kw)[1:])`: everything from the first occurrence of
`kw` on, or `kw` itself when `kw` does not occur. -/
def dropBeforeFirst (kw s : String) : String :=
  match findSub kw s with
  | some i => ⟨s.data.drop i⟩
  | none => kw

/-- `remove_comments_and_axioms_from_proof`. -/
def remove_comments_and_axioms_from_proof (proof : String) : String :=
  let p := stripPy (remove_lean_comments proof)
  if containsSub "lemma" p then stripPy (dropBeforeFirst "lemma" p)
  else stripPy (dropBeforeFirst "theorem" p)

/-- `proof.rfind(chr(10) + 'theorem ')`, falling back to position 0 when the
string itself starts with `theorem `. -/
def lastTheoremStart (s : String) : Option Nat :=
  match rfindSub "\ntheorem " s with
  | some i => some i
  | none => if startsWithPy "theorem " s then some 0 else none

/-- `substitute_final_theorem`. -/
def substitute_final_theorem (lean_proof problem_statement : String) : String :=
  let proof := stripPy lean_proof
  let problem := stripPy problem_statement
  match lastTheoremStart proof with
  | none => proof ++ "\n\n" ++ problem
  | some lti =>
    let proof_prefix : String := ⟨proof.data.take lti⟩
    let final_theorem_block : String := ⟨proof.data.drop lti⟩
    match findSub ":=" final_theorem_block with
    | none => stripPy proof_prefix ++ "\n\n" ++ problem
    | some psi =>
      let original_proof_part : String := ⟨final_theorem_block.data.drop psi⟩
      match lastTheoremStart problem with
      | none => stripPy proof_prefix ++ "\n\n" ++ problem
      | some pti =>
        match rfindSub ":=" problem with
        | none => stripPy proof_prefix ++ "\n\n" ++ problem
        | some sei =>
          let new_signature_part : String := ⟨(problem.data.take sei).drop pti⟩
          stripPy proof_prefix ++ "\n\n" ++ stripPy new_signature_part ++ " " ++
            stripPy original_proof_part

def DEFAULT_HEADER : String :=
  "import Mathlib\nimport Aesop\n\nset_option maxHeartbeats 0\n\nopen BigOperators Real Nat Topology Rat\n\n"

def DEFAULT_HEADER_NO_OPEN : String :=
  "import Mathlib\nimport Aesop\n\nset_option maxHeartbeats 0\n\n"

/-- `extract_open_line`: first line whose stripped form starts with `open`. -/
def extract_open_line (header : String) : Option String :=
  (splitlinesPy header).find? (fun line => startsWithPy "open" (stripPy line))

/-- `process_import_part`. -/
def process_import_part (header : String) : String :=
  match extract_open_line header with
  | none => DEFAULT_HEADER
  | some line => DEFAULT_HEADER_NO_OPEN ++ line ++ "\n\n"

def fencedAux (opener : List Char) : Nat → List Char → List (List Char)
  | 0, _ => []
  | fuel + 1, s =>
    match findSubAux opener s 0 with
    | none => []
    | some i =>
      let afterOpen := s.drop (i + opener.length)
      match findSubAux ("```".data) afterOpen 0 with
      | none => []
      | some j =>
        afterOpen.take j :: fencedAux opener fuel (afterOpen.drop (j + 3))

/-- `re.findall(r'x(.*?)x', output, re.DOTALL)` for a fenced block with the
given tag: non-overlapping matches, lazily closed at the next triple
backtick. -/
def fencedMatches (tag output : String) : List String :=
  (fencedAux (("```" ++ tag).data) (output.data.length + 1) output.data).map (⟨·⟩)

/-- The rejection test applied to every candidate. -/
def contains4 (r : String) : Bool :=
  containsSub "apply?" r || containsSub "exact?" r || containsSub "admit" r ||
    containsSub "axiom" r

/-- One branch of `InferenceHandler.process_output` / `RevisionHandler.process_output`:
`raw` is the extracted block (or the whole output when `fenced = false`; the
fall-through branch never prepends facts). -/
def processBranch (raw statement : String) (facts : Option (List String)) (fenced : Bool) :
    String :=
  let use_facts : Bool := match facts with
    | some fs => !fs.isEmpty
    | none => false
  let axioms_str : String := match facts with
    | some fs => if fs.isEmpty then "" else joinSep "\n\n" fs
    | none => ""
  let imports_and_opens := (split_proof_at_first_statement statement).1
  let r0 := remove_imports_from_proof (remove_comments_and_axioms_from_proof (stripPy raw))
  let r1 := stripPy (substitute_final_theorem r0 statement)
  if contains4 r1 then statement
  else if fenced && use_facts then
    process_import_part imports_and_opens ++ "\n\n" ++ axioms_str ++ "\n\n" ++ r1
  else
    process_import_part imports_and_opens ++ r1

/-- The shared body of `InferenceHandler.process_output` and
`RevisionHandler.process_output`. -/
def process_output (output statement : String) (facts : Option (List String)) : String :=
  let m4 := fencedMatches "lean4" output
  let m1 := fencedMatches "lean" output
  if !m4.isEmpty then processBranch (m4.getLastD "") statement facts true
  else if !m1.isEmpty then processBranch (m1.getLastD "") statement facts true
  else processBranch output statement facts false

def InferenceHandler.process_output (output statement : String)
    (facts : Option (List String)) : String :=
  TestTime.process_output output statement facts

def RevisionHandler.process_output (output statement : String)
    (facts : Option (List String)) : String :=
  TestTime.process_output output statement facts

/-- The candidate (`return_str`) computed by whichever branch of
`process_output` applies, before the rejection test. -/
def extractCandidate (output statement : String) : String :=
  let m4 := fencedMatches "lean4" output
  let m1 := fencedMatches "lean" output
  let raw := if !m4.isEmpty then m4.getLastD ""
    else if !m1.isEmpty then m1.getLastD "" else output
  stripPy (substitute_final_theorem
    (remove_imports_from_proof (remove_comments_and_axioms_from_proof (stripPy raw)))
    statement)

/-! ### `split_import_and_body` (the shadowing, normalising version) and
`ProofAnalysis._extract_header` -/

def DEFAULT_IMPORTS : String := "import Mathlib\nimport Aesop\n"

def defaultImportLines : List String := ["import Mathlib", "import Aesop"]

def splitImportLoop : List String → Bool → List String → List String →
    (List String × List String)
  | [], _, imps, body => (imps.reverse, body.reverse)
  | line :: rest, sawImport, imps, body =>
    let stripped := stripPy line
    if startsWithPy "import" stripped then
      splitImportLoop rest true (stripped :: imps) body
    else if sawImport then
      (imps.reverse, line :: rest)
    else
      splitImportLoop rest sawImport imps (line :: body)

/-- `split_import_and_body` (the second definition, which shadows the
first): collect the stripped import lines, break at the first non-import
line after them (discarding any accumulated pre-import lines), and
canonicalise to `DEFAULT_IMPORTS` when every import line is contained in
it. -/
def split_import_and_body (code : String) : String × String :=
  let lines := splitlinesPy code
  let (imps, body) := splitImportLoop lines false [] []
  let import_block := joinNl imps
  let lean_body := joinNl body
  if imps.all (fun l => defaultImportLines.contains l) then
    (stripPy DEFAULT_IMPORTS, lean_body)
  else
    (stripPy import_block, lean_body)

/-- The predicate selecting header lines in `_extract_header`. -/
def isHeaderLine (line : String) : Bool :=
  let s := stripPy line
  startsWithPy "import" s || startsWithPy "open" s ||
    startsWithPy "set_option" s || s == ""

/-- `ProofAnalysis._extract_header`: longest prefix of blank /
`import` / `open` / `set_option` lines, joined and stripped. -/
def extract_header (lines : List String) : String :=
  stripPy (joinNl (lines.takeWhile isHeaderLine))

/-! ### `ProofAnalysis`: declaration extraction -/

/-- One entry of the `declarations` dict of `ProofAnalysis`. -/
structure Decl where
  name : String
  kind : DeclKind
  start_line : Nat
  end_line : Nat
  dependencies : List String
  has_proof : Bool
  full_text : String
  original_subproblem : Option (String × List String)
  fixed_subproblem : Option String
  was_fixed : Bool
  is_verified : Bool
  added_for : Option String
  renamed_from : Option String
deriving DecidableEq, Repr

/-- Python-dict assignment `declarations[name] = d`: overwrite in place,
append when the key is new. -/
def dictInsert (ds : List Decl) (d : Decl) : List Decl :=
  if ds.any (fun e => e.name == d.name) then
    ds.map (fun e => if e.name == d.name then d else e)
  else ds ++ [d]

def dictFind (ds : List Decl) (n : String) : Option Decl :=
  ds.find? (fun d => d.name == n)

def updateDecl (ds : List Decl) (n : String) (f : Decl → Decl) : List Decl :=
  ds.map (fun d => if d.name == n then f d else d)

/-- Assignment into a `name → value` dict. -/
def alistInsert {α : Type} (xs : List (String × α)) (n : String) (v : α) :
    List (String × α) :=
  if xs.any (fun p => p.1 == n) then
    xs.map (fun p => if p.1 == n then (n, v) else p)
  else xs ++ [(n, v)]

def alistFind {α : Type} (xs : List (String × α)) (n : String) : Option α :=
  (xs.find? (fun p => p.1 == n)).map (·.2)

def setAdd (xs : List String) (n : String) : List String :=
  if xs.contains n then xs else xs ++ [n]

def setRemove (xs : List String) (n : String) : List String :=
  xs.filter (fun m => m != n)

def mkNewDecl (n : String) (k : DeclKind) (startLine : Nat) : Decl :=
  { name := n, kind := k, start_line := startLine, end_line := startLine,
    dependencies := [], has_proof := false, full_text := "",
    original_subproblem := none, fixed_subproblem := none,
    was_fixed := false, is_verified := false,
    added_for := none, renamed_from := none }

/-- First pass of `_extract_declarations`: find declaration start lines
(`start_line` is 1-indexed; a repeated name overwrites its entry). -/
def firstPass (lines : List String) : List Decl :=
  lines.enum.foldl (fun ds p =>
    match matchDecl p.2 with
    | some (k, n) => dictInsert ds (mkNewDecl n k (p.1 + 1))
    | none => ds) []

def insertByStart (d : Decl) : List Decl → List Decl
  | [] => [d]
  | e :: rest =>
    if d.start_line ≤ e.start_line then d :: e :: rest else e :: insertByStart d rest

/-- `sorted(declarations.values(), key=start_line)`. -/
def sortByStart (ds : List Decl) : List Decl := ds.foldr insertByStart []

/-- Python slice `lines[a:b]`. -/
def sliceLines (lines : List String) (startIdx endIdx : Nat) : List String :=
  (lines.take endIdx).drop startIdx

/-- Second pass of `_extract_declarations` for one declaration, given its
successor in source order. -/
def secondPassOne (lines : List String) (numLines : Nat) (d : Decl) (next : Option Decl) :
    Decl :=
  let endIdx := match next with
    | some nd => nd.start_line - 1
    | none => numLines
  let ft := stripPy (joinNl (sliceLines lines (d.start_line - 1) endIdx))
  { d with end_line := endIdx, full_text := ft,
           has_proof := (d.kind == .lem || d.kind == .thm) && containsSub ":=" ft }

def secondPassList (lines : List String) (numLines : Nat) : List Decl → List Decl
  | [] => []
  | [d] => [secondPassOne lines numLines d none]
  | d :: e :: rest =>
    secondPassOne lines numLines d (some e) :: secondPassList lines numLines (e :: rest)

/-- Third pass: whole-word dependencies on the other declaration names
(axioms keep an empty dependency set). -/
def thirdPassOne (names : List String) (d : Decl) : Decl :=
  if d.kind == .axm then d
  else { d with dependencies := names.filter (fun n => n != d.name && wordSearch n d.full_text) }

/-- `ProofAnalysis._extract_declarations`. -/
def extract_declarations (lines : List String) : List Decl :=
  let ds1 := firstPass lines
  let upd := secondPassList lines lines.length (sortByStart ds1)
  let ds2 := ds1.map (fun d =>
    match upd.find? (fun u => u.name == d.name) with
    | some u => u
    | none => d)
  let names := ds2.map (·.name)
  ds2.map (thirdPassOne names)

/-! ### `ProofAnalysis`: state, verification, subproblems -/

/-- One entry of `fix_history` (an absent `renamings` key is `[]`). -/
structure FixRecord where
  original_subproblem : String
  fixed_subproblem : String
  renamings : List (String × String)
deriving DecidableEq, Repr

structure ProofAnalysis where
  code : String
  original_code : String
  lines : List String
  header : String
  declarations : List Decl
  fix_history : List (String × FixRecord)
  lemma_compilation_results : List (String × CompilationResult)
  error_declarations : List String
  verification_done : Bool
deriving DecidableEq, Repr

/-- `ProofAnalysis.__init__` (the deprecated `errors` argument only stores
the list and plays no further role). -/
def mkAnalysis (code : String) : ProofAnalysis :=
  let lines := splitNl code
  { code := code, original_code := code, lines := lines,
    header := extract_header lines,
    declarations := extract_declarations lines,
    fix_history := [], lemma_compilation_results := [],
    error_declarations := [], verification_done := false }

/-- `ProofAnalysis._get_proof_dependencies`: names occurring whole-word in
the text after `:= by` (or `:=`). -/
def get_proof_dependencies (pa : ProofAnalysis) (lemma_name : String) : List String :=
  match dictFind pa.declarations lemma_name with
  | none => []
  | some d =>
    let ft := d.full_text
    let proof_text : String :=
      match splitOnce ":= by" ft with
      | some pr => pr.2
      | none =>
        match splitOnce ":=" ft with
        | some pr => pr.2
        | none => ""
    (pa.declarations.map (·.name)).filter (fun n => n != lemma_name && wordSearch n proof_text)

/-- Keyword swap plus proof removal used when a lemma/theorem is downgraded
to axiom form. -/
def toAxiomForm (decl_text : String) : String :=
  let t1 := if startsWithPy "lemma" decl_text then replaceFirst decl_text "lemma" "axiom"
    else replaceFirst decl_text "theorem" "axiom"
  match splitOnce ":=" t1 with
  | some pr => stripPy pr.1
  | none => t1

/-- The `should_include` test for a lemma/theorem dependency: its recorded
compilation result if present, otherwise "not yet flagged as an error". -/
def shouldInclude (pa : ProofAnalysis) (n : String) : Bool :=
  match alistFind pa.lemma_compilation_results n with
  | some r => r.complete
  | none => !(pa.error_declarations.contains n)

/-- `ProofAnalysis._construct_verification_code` (`none` models the
`ValueError` raised on an invalid target). -/
def construct_verification_code (pa : ProofAnalysis) (lemma_name : String) : Option String :=
  match dictFind pa.declarations lemma_name with
  | none => none
  | some target =>
    if !(target.kind == .lem || target.kind == .thm) then none
    else
      let proof_deps := get_proof_dependencies pa lemma_name
      let context_parts := (sortByStart pa.declarations).foldl (fun acc info =>
        if info.name == lemma_name then acc
        else if info.kind == .dfn then acc ++ [info.full_text]
        else if info.kind == .axm && proof_deps.contains info.name then acc ++ [info.full_text]
        else if (info.kind == .lem || info.kind == .thm) && proof_deps.contains info.name then
          (if shouldInclude pa info.name then acc ++ [toAxiomForm info.full_text] else acc)
        else acc) []
      some (pa.header ++ "\n\n" ++ joinSep "\n\n" context_parts ++ "\n\n" ++
        target.full_text)

/-- `ProofAnalysis._construct_subproblem_internal`.  The branches that the
source keeps commented out would have placed the axiom-form dependencies
into `context_parts`; the live code appends them to `facts` instead. -/
def construct_subproblem_internal (pa : ProofAnalysis) (lemma_name : String) :
    Option (String × List String) :=
  match dictFind pa.declarations lemma_name with
  | none => none
  | some target =>
    if !(target.kind == .lem || target.kind == .thm) then none
    else
      let proof_deps := get_proof_dependencies pa lemma_name
      let target_text := target.full_text
      let theorem_text0 :=
        if startsWithPy "lemma" target_text then replaceFirst target_text "lemma" "theorem"
        else target_text
      let theorem_text := match splitOnce ":=" theorem_text0 with
        | some pr => stripPy pr.1 ++ " := by sorry"
        | none => theorem_text0 ++ " := by sorry"
      let cf := (sortByStart pa.declarations).foldl
        (fun (acc : List String × List String) info =>
          if info.name == lemma_name then acc
          else if info.kind == .dfn then (acc.1 ++ [info.full_text], acc.2)
          else if info.kind == .axm && proof_deps.contains info.name then
            (acc.1, acc.2 ++ [info.full_text])
          else if (info.kind == .lem || info.kind == .thm) && proof_deps.contains info.name then
            (if shouldInclude pa info.name then (acc.1, acc.2 ++ [toAxiomForm info.full_text])
             else acc)
          else acc) ([], [])
      some (pa.header ++ "\n" ++ joinSep "\n\n" cf.1 ++ "\n" ++ theorem_text, cf.2)

/-- `ProofAnalysis._cache_subproblems`. -/
def cache_subproblems (pa : ProofAnalysis) : ProofAnalysis :=
  { pa with declarations := pa.declarations.map (fun d =>
      if d.kind == .lem || d.kind == .thm then
        { d with original_subproblem := construct_subproblem_internal pa d.name }
      else d) }

/-- `ProofAnalysis.construct_subproblem`: the cached pair when present
(a cached pair is always truthy), else a fresh construction. -/
def construct_subproblem (pa : ProofAnalysis) (lemma_name : String) :
    Option (String × List String) :=
  match dictFind pa.declarations lemma_name with
  | some d =>
    match d.original_subproblem with
    | some sp => some sp
    | none => construct_subproblem_internal pa lemma_name
  | none => construct_subproblem_internal pa lemma_name

/-- `ProofAnalysis._verify_lemma_async` reduced to its recorded result:
compile the verification file through the scheduler oracle; any exception
is recorded as an incomplete result with a bare `data` message. -/
def verify_lemma_record (oracle : String → Except String CompilationResult)
    (pa : ProofAnalysis) (lemma_name : String) : CompilationResult :=
  match construct_verification_code pa lemma_name with
  | none =>
    { pass := false, complete := false,
      errors := some [{ severity := "", data := "Verification failed" }],
      sorries := none, system_errors := none, system_messages := none, verified_by := none }
  | some vcode =>
    match oracle vcode with
    | .ok r => r
    | .error e =>
      { pass := false, complete := false,
        errors := some [{ severity := "", data := e }],
        sorries := none, system_errors := none, system_messages := none, verified_by := none }

/-- One recording step of `verify_all_lemmas`: store the result for `n`,
set its `is_verified` flag, and put `n` into `error_declarations` iff the
result is not complete.  `pa0` is the pre-verification state against which
every verification file is constructed. -/
def verifyStep (oracle : String → Except String CompilationResult) (pa0 : ProofAnalysis)
    (acc : ProofAnalysis) (n : String) : ProofAnalysis :=
  let r := verify_lemma_record oracle pa0 n
  { acc with
    lemma_compilation_results := alistInsert acc.lemma_compilation_results n r,
    declarations := updateDecl acc.declarations n (fun d => { d with is_verified := r.complete }),
    error_declarations :=
      if r.complete then acc.error_declarations else setAdd acc.error_declarations n }

/-- The names verified by `verify_all_lemmas`: every lemma or theorem with
a proof, in dict order. -/
def lemmaNamesOf (pa : ProofAnalysis) : List String :=
  (pa.declarations.filter (fun d =>
    (d.kind == .lem || d.kind == .thm) && d.has_proof)).map (·.name)

/-- `ProofAnalysis.verify_all_lemmas`.  All verification files are
constructed against the pre-verification state (each task runs to its
first await before any compilation result is recorded); each lemma or
theorem with a proof then gets its result recorded, its `is_verified`
flag set, and membership in `error_declarations` iff the result is not
complete.  Subproblems are cached afterwards. -/
def verify_all_lemmas (scheduler : Option (String → Except String CompilationResult))
    (pa : ProofAnalysis) : ProofAnalysis :=
  if pa.verification_done then pa
  else match scheduler with
  | none => pa
  | some oracle =>
    let pa1 := (lemmaNamesOf pa).foldl (verifyStep oracle pa) pa
    cache_subproblems { pa1 with verification_done := true }

/-! ### `ProofAnalysis.fix_lemma` -/

def genUniqueAux (base : String) (existing : List String) : Nat → Nat → String
  | 0, counter => base ++ "_" ++ natToDec counter
  | fuel + 1, counter =>
    if existing.contains (base ++ "_" ++ natToDec counter) then
      genUniqueAux base existing fuel (counter + 1)
    else base ++ "_" ++ natToDec counter

/-- `ProofAnalysis._generate_unique_name`: `base` itself when free,
otherwise `base_k` for the first free `k = 1, 2, …`.  The Python `while`
loop always terminates since decimal suffixes are injective; fuel
`existing.length + 1` is shown sufficient below. -/
def generate_unique_name (base : String) (existing : List String) : String :=
  if !(existing.contains base) then base
  else genUniqueAux base existing (existing.length + 1) 1

/-- One declaration parsed out of the candidate replacement code inside
`fix_lemma` (`start_line`/`end_line` are 0-indexed as in the Python). -/
structure FixedDecl where
  kind : DeclKind
  start_line : Nat
  end_line : Nat
  name : String
  text : String
  original_name : Option String
deriving DecidableEq, Repr

def fdictInsert (ds : List FixedDecl) (d : FixedDecl) : List FixedDecl :=
  if ds.any (fun e => e.name == d.name) then
    ds.map (fun e => if e.name == d.name then d else e)
  else ds ++ [d]

def fixedFirstPass (fixed_lines : List String) : List FixedDecl :=
  fixed_lines.enum.foldl (fun ds p =>
    match matchDecl p.2 with
    | some (k, n) =>
      fdictInsert ds
        { kind := k, start_line := p.1, end_line := p.1, name := n, text := "",
          original_name := none }
    | none => ds) []

def insertFDByStart (d : FixedDecl) : List FixedDecl → List FixedDecl
  | [] => [d]
  | e :: rest =>
    if d.start_line ≤ e.start_line then d :: e :: rest else e :: insertFDByStart d rest

def sortFDByStart (ds : List FixedDecl) : List FixedDecl := ds.foldr insertFDByStart []

def fixedSecondOne (ls : List String) (numLines : Nat) (d : FixedDecl)
    (next : Option FixedDecl) : FixedDecl :=
  let endIdx := match next with
    | some nd => nd.start_line
    | none => numLines
  { d with end_line := endIdx, text := stripPy (joinNl (sliceLines ls d.start_line endIdx)) }

def fixedSecondList (ls : List String) (numLines : Nat) : List FixedDecl → List FixedDecl
  | [] => []
  | [d] => [fixedSecondOne ls numLines d none]
  | d :: e :: rest =>
    fixedSecondOne ls numLines d (some e) :: fixedSecondList ls numLines (e :: rest)

/-- Steps 1 of `fix_lemma`: parse the declarations of the fixed code. -/
def extractFixedDecls (fixed_lines : List String) : List FixedDecl :=
  let ds1 := fixedFirstPass fixed_lines
  let upd := fixedSecondList fixed_lines fixed_lines.length (sortFDByStart ds1)
  ds1.map (fun d =>
    match upd.find? (fun u => u.name == d.name) with
    | some u => u
    | none => d)

/-- The synthetic success result recorded for fixed lemmas (the Python dict
`{'complete': True, 'pass': True, 'errors': [], 'verified_by': 'lightweight_pipeline'}`;
its `sorries` key is absent). -/
def lightweightSuccessResult : CompilationResult :=
  { pass := true, complete := true, errors := some [], sorries := none,
    system_errors := none, system_messages := none,
    verified_by := some "lightweight_pipeline" }

inductive FixOutcome
  | notFound
  | cacheError
  | targetMissing
  | fixed (replacement : String) (renamings : List (String × String))
deriving DecidableEq, Repr

/-- Step 4 of `fix_lemma`: walk the parsed declarations of the fixed code,
collecting new helper lemmas/theorems and renaming name collisions.
State: `(new_lemmas, name_mappings, existing_names)`. -/
def fixStep4 (lemma_name : String) (fixed_declarations : List FixedDecl)
    (initial_names : List String) :
    List FixedDecl × List (String × String) × List String :=
  fixed_declarations.foldl
    (fun (st : List FixedDecl × List (String × String) × List String) decl_info =>
      if decl_info.kind == .axm || decl_info.kind == .dfn then st
      else if decl_info.name == lemma_name then st
      else if st.2.2.contains decl_info.name then
        let new_name := generate_unique_name decl_info.name st.2.2
        (st.1 ++ [{ decl_info with name := new_name, original_name := some decl_info.name }],
         st.2.1 ++ [(decl_info.name, new_name)],
         setAdd st.2.2 new_name)
      else
        (st.1 ++ [decl_info], st.2.1, setAdd st.2.2 decl_info.name))
    ([], [], initial_names)

/-- Apply every recorded renaming, in order, to a text (step 5 / step 8). -/
def applyMappings (name_mappings : List (String × String)) (t : String) : String :=
  name_mappings.foldl (fun acc p => rename_declaration_in_text acc p.1 p.2) t

/-- `ProofAnalysis.fix_lemma`.  Returns the updated state together with an
outcome naming the exit taken; every non-`fixed` exit leaves the state
unchanged (`cacheError` is the `TypeError` raised when no subproblem is
cached for the target — nothing has been mutated at that point either).
The `fixed` outcome carries the spliced replacement text and the renamings
applied. -/
def fix_lemma (pa : ProofAnalysis) (lemma_name fixed_subproblem_code : String) :
    ProofAnalysis × FixOutcome :=
  match dictFind pa.declarations lemma_name with
  | none => (pa, .notFound)
  | some original_info =>
    match original_info.original_subproblem with
    | none => (pa, .cacheError)
    | some cached =>
      let orig_sp_opt : Option String :=
        if cached.1 == "" then (construct_subproblem_internal pa lemma_name).map (·.1)
        else some cached.1
      match orig_sp_opt with
      | none => (pa, .cacheError)
      | some original_subproblem =>
        let previously_fixed := (pa.declarations.filter (·.was_fixed)).map (·.name)
        let fixed_lines := splitNl fixed_subproblem_code
        let fixed_declarations := extractFixedDecls fixed_lines
        match fixed_declarations.find? (fun d => d.name == lemma_name) with
        | none => (pa, .targetMissing)
        | some target_fixed_decl =>
          let ndt0 := target_fixed_decl.text
          let new_decl_text0 :=
            if original_info.kind == .lem && startsWithPy "theorem" ndt0 then
              replaceFirst ndt0 "theorem" "lemma"
            else if original_info.kind == .thm && startsWithPy "lemma" ndt0 then
              replaceFirst ndt0 "lemma" "theorem"
            else ndt0
          let st4 := fixStep4 lemma_name fixed_declarations (pa.declarations.map (·.name))
          let name_mappings := st4.2.1
          let new_lemmas1 := sortFDByStart st4.1
          let new_lemmas :=
            if name_mappings.isEmpty then new_lemmas1
            else new_lemmas1.map (fun li => { li with text := applyMappings name_mappings li.text })
          let new_decl_text :=
            if name_mappings.isEmpty then new_decl_text0
            else applyMappings name_mappings new_decl_text0
          let replacement_parts :=
            (new_lemmas.map (fun li =>
              if startsWithPy "theorem" li.text then replaceFirst li.text "theorem" "lemma"
              else li.text)) ++ [new_decl_text]
          let replacement_text := joinSep "\n\n" replacement_parts
          let start_line_idx := original_info.start_line - 1
          let end_line_idx := original_info.end_line
          let new_lines := pa.lines.take start_line_idx ++ splitNl replacement_text ++
            pa.lines.drop end_line_idx
          let new_code := joinNl new_lines
          let fix_entry : FixRecord :=
            if name_mappings.isEmpty then
              { original_subproblem := original_subproblem,
                fixed_subproblem := fixed_subproblem_code, renamings := [] }
            else
              { original_subproblem := original_subproblem,
                fixed_subproblem := applyMappings name_mappings fixed_subproblem_code,
                renamings := name_mappings }
          let fh := alistInsert pa.fix_history lemma_name fix_entry
          let old_results := pa.lemma_compilation_results
          let decls2 := extract_declarations (splitNl new_code)
          let declsR := previously_fixed.foldl (fun ds n =>
            if ds.any (fun d => d.name == n) then
              updateDecl ds n (fun d =>
                let d1 := { d with was_fixed := true }
                let d2 := match alistFind fh n with
                  | some r => { d1 with fixed_subproblem := some r.fixed_subproblem }
                  | none => d1
                match alistFind old_results n with
                | some r => { d2 with is_verified := r.complete }
                | none => d2)
            else ds) decls2
          let lemmas_to_mark := lemma_name :: new_lemmas.map (·.name)
          let st10 := lemmas_to_mark.foldl
            (fun (st : List Decl × List (String × CompilationResult) × List String) n =>
              if st.1.any (fun d => d.name == n) then
                (updateDecl st.1 n (fun d => { d with was_fixed := true, is_verified := true }),
                 alistInsert st.2.1 n lightweightSuccessResult,
                 setRemove st.2.2 n)
              else st)
            (declsR, old_results, pa.error_declarations)
          let decls11 :=
            if st10.1.any (fun d => d.name == lemma_name) then
              updateDecl st10.1 lemma_name (fun d =>
                { d with fixed_subproblem := some fix_entry.fixed_subproblem })
            else st10.1
          let decls12 := new_lemmas.foldl (fun ds li =>
            if ds.any (fun d => d.name == li.name) then
              updateDecl ds li.name (fun d =>
                { d with added_for := some lemma_name,
                         renamed_from := match li.original_name with
                           | some o => some o
                           | none => d.renamed_from })
            else ds) decls11
          let pa' : ProofAnalysis :=
            { code := new_code, original_code := pa.original_code,
              lines := splitNl new_code,
              header := pa.header,
              declarations := decls12,
              fix_history := fh,
              lemma_compilation_results := st10.2.1,
              error_declarations := st10.2.2,
              verification_done := pa.verification_done }
          (cache_subproblems pa', .fixed replacement_text name_mappings)

/-! ### Spec-side definitions used to state refinement claims

These follow the wording of the specification; the theorems below compare
them with the fold inside `construct_subproblem_internal`. -/

/-- From the spec: the context of a subproblem is the defs, verbatim, in
source order (the target itself skipped). -/
def specSubproblemContext (pa : ProofAnalysis) (L : String) : List String :=
  (sortByStart pa.declarations).filterMap (fun d =>
    if d.name ≠ L ∧ d.kind = .dfn then some d.full_text else none)

/-- From the spec: the facts list of a subproblem — axioms verbatim and
includable lemmas/theorems in axiom form, among the declarations whose
names occur in the target's proof body, in source order. -/
def specSubproblemFacts (pa : ProofAnalysis) (L : String) : List String :=
  (sortByStart pa.declarations).filterMap (fun d =>
    if d.name = L then none
    else if d.kind = .axm ∧ d.name ∈ get_proof_dependencies pa L then some d.full_text
    else if (d.kind = .lem ∨ d.kind = .thm) ∧ d.name ∈ get_proof_dependencies pa L ∧
        shouldInclude pa d.name = true then
      some (toAxiomForm d.full_text)
    else none)

/-- From the spec: the target of a subproblem — its keyword coerced to
`theorem` and its proof replaced by `:= by sorry`. -/
def specSorryTarget (target_text : String) : String :=
  let t0 := if startsWithPy "lemma" target_text then replaceFirst target_text "lemma" "theorem"
    else target_text
  match splitOnce ":=" t0 with
  | some pr => stripPy pr.1 ++ " := by sorry"
  | none => t0 ++ " := by sorry"

/-- The fields of a declaration that verification and caching leave
untouched. -/
def skelD (d : Decl) : String × DeclKind × Bool := (d.name, d.kind, d.has_proof)

/-- The name and fix-status flags of a declaration, used to trace the
post-splice bookkeeping of `fix_lemma`. -/
def flagsD (d : Decl) : String × Bool × Bool := (d.name, d.was_fixed, d.is_verified)

/-! ### Concrete fixtures for counterexamples and witnesses -/

def okRecord : CompilationResult :=
  { pass := true, complete := true, errors := some [], sorries := some [],
    system_errors := none, system_messages := none, verified_by := none }

def failRecord : CompilationResult :=
  { pass := false, complete := false, errors := some [{ severity := "error", data := "err" }],
    sorries := some [], system_errors := none, system_messages := none, verified_by := none }

/-- C2 fixture: a proof whose final theorem uses the axiom `ax1`. -/
def c2src : String :=
  "import Mathlib\n\ndef d1 : Nat := 3\n\naxiom ax1 : True\n\ntheorem T : True := by\n  exact ax1\n"

def c2oracle : String → Except String CompilationResult := fun _ => .ok okRecord

def c2pa : ProofAnalysis := verify_all_lemmas (some c2oracle) (mkAnalysis c2src)

/-- C4 fixture: a dotted lemma name `foo.bar` next to a lemma `foo`. -/
def c4src : String := "lemma foo : True := trivial\n\nlemma foo.bar : True := foo\n"

/-- C4 fixture oracle: the isolated verification of `foo.bar` fails, that of
`foo` succeeds. -/
def c4oracle : String → Except String CompilationResult :=
  fun code => .ok (if containsSub "foo.bar" code then failRecord else okRecord)

def c4pa : ProofAnalysis := verify_all_lemmas (some c4oracle) (mkAnalysis c4src)

/-- C4 fixture: the repaired subproblem renames nothing by itself, but its
helper `foo` collides with the existing `foo`. -/
def c4fixed : String := "theorem foo : True := trivial\n\ntheorem foo.bar : True := foo"

/-- C5 fixture: a declaration whose captured name ends in a dot. -/
def c5src : String := "lemma foo. : True := trivial\n\nlemma tgt : True := trivial\n"

def c5pa : ProofAnalysis := cache_subproblems (mkAnalysis c5src)

def c5fixed : String := "theorem foo. : True := trivial\n\ntheorem tgt : True := trivial"

/-- C5 witness fixture. -/
def c5wsrc : String := "lemma hfoo : True := trivial\n\nlemma main : True := hfoo\n"

def c5woracle : String → Except String CompilationResult :=
  fun code => .ok (if containsSub "main" code then failRecord else okRecord)

def c5wpa : ProofAnalysis := verify_all_lemmas (some c5woracle) (mkAnalysis c5wsrc)

def c5wfixed : String := "theorem hfoo : True := trivial\n\ntheorem main : True := hfoo"

/-- C9 fixture: a source whose only import is a subset of the defaults, so
the split canonicalises and the round-trip fails. -/
def c9src : String := "import Mathlib\ntheorem t1 : True := trivial"

/-- Recombination of the pieces produced by `split_import_and_body`. -/
def recombineSplit (code : String) : String :=
  (split_import_and_body code).1 ++ "\n" ++ (split_import_and_body code).2

/-- Recombination of the pieces produced by `_extract_header`: the stripped
header block plus the remaining lines. -/
def recombineHeader (code : String) : String :=
  let lines := splitNl code
  extract_header lines ++ "\n" ++ joinNl (lines.drop (lines.takeWhile isHeaderLine).length)

def c9hdrsrc : String := "\n\nlemma t2 : True := trivial"

/-- C3/C10 witness fixtures. -/
def c3q : List InfTask := [⟨5, 0, "a"⟩, ⟨3, 1, "b"⟩, ⟨3, 2, "c"⟩]

def c10pa : ProofAnalysis := mkAnalysis "lemma a1 : True := trivial"

/-! ## Claim C6 -/

/-- **C6 counterexample.**  The exception path of `verify_lean4_file`
(REPL crash, timeout, or non-JSON output) produces a result that records
no errors at all (`errors` key absent, read back as `[]` downstream) yet
has `pass = false`, so "pass = (errors is empty)" fails for it. -/
theorem c6_counterexample :
    (verify_lean4_file (.error "TimeoutExpired")).pass = false ∧
    ((verify_lean4_file (.error "TimeoutExpired")).errors.getD []).isEmpty = true := by
  exact ⟨rfl, rfl⟩

/-- **C6 (amended).**  For every result parsed from a successful REPL run,
`pass = (errors is empty)` and `complete = (errors empty ∧ sorries empty)`;
for every result of the child protocol (including child failures, which
carry `pass = complete = false` and a `system_errors` traceback),
`complete` implies `pass`, no errors and no sorries. -/
theorem c6_amended (o : Except String ReplReply) :
    (∀ reply, o = Except.ok reply →
      ((verify_lean4_file o).pass = ((verify_lean4_file o).errors.getD []).isEmpty ∧
        (verify_lean4_file o).complete =
          (((verify_lean4_file o).errors.getD []).isEmpty &&
            ((verify_lean4_file o).sorries.getD []).isEmpty))) ∧
    ((verify_lean4_file o).complete = true →
      (verify_lean4_file o).pass = true ∧ (verify_lean4_file o).errors = some [] ∧
        (verify_lean4_file o).sorries = some []) := by
  cases o with
  | ok reply =>
    constructor
    · intro r _
      exact ⟨rfl, rfl⟩
    · intro hc
      simp only [verify_lean4_file, Bool.and_eq_true, List.isEmpty_iff] at hc
      simp [verify_lean4_file, hc.1, hc.2]
  | error tb =>
    constructor
    · intro r hr
      cases hr
    · intro hc
      simp [verify_lean4_file] at hc

theorem c6_witness :
    (verify_lean4_file (.ok ⟨[{ severity := "error", data := "e" }], []⟩)).pass =
      ((verify_lean4_file
        (.ok ⟨[{ severity := "error", data := "e" }], []⟩)).errors.getD []).isEmpty := by
  exact ((c6_amended (.ok ⟨[{ severity := "error", data := "e" }], []⟩)).1 _ rfl).1

/-! ## Claim C7 -/

/-- **C7 counterexample.**  A transport error is delivered to the future
wrapped in `tenacity.RetryError` (the decorator's default
`reraise=False`), not unchanged: the exception object set on the future is
the wrapper, which differs from the original transport error. -/
theorem c7_counterexample :
    workerFutureResult (fun _ => .error (.transport "ConnectError")) =
      .error (.retryError (.transport "ConnectError")) ∧
    RaisedError.retryError (.transport "ConnectError") ≠
      RaisedError.orig (.transport "ConnectError") := by
  exact ⟨rfl, by decide⟩

/-- **C7 (amended).**  With `stop_after_attempt(0)` the inference
scheduler's API call makes exactly one attempt whatever the outcome (no
retry), and a transport error on that attempt reaches the task's future as
a `RetryError` wrapping the original transport error. -/
theorem c7_amended (att : Nat → Except UpstreamError String) :
    (inference_make_api_call att).2 = 1 ∧
    (∀ e, att 1 = .error e → isTransient e = true →
      workerFutureResult att = .error (.retryError e)) := by
  constructor
  · unfold inference_make_api_call retryCall retryCallAux
    cases h : att 1 with
    | ok r => simp
    | error e => cases e <;> simp [isTransient]
  · intro e h ht
    unfold workerFutureResult inference_make_api_call retryCall retryCallAux
    simp [h, ht]

theorem c7_witness :
    (inference_make_api_call (fun _ => .error (.transport "t"))).2 = 1 ∧
    workerFutureResult (fun _ => .error (.transport "t")) =
      .error (.retryError (.transport "t")) := by
  have h := c7_amended (fun _ => .error (.transport "t"))
  exact ⟨h.1, h.2 (.transport "t") rfl rfl⟩

/-! ## Claim C10 -/

/-- **C10.**  Calling `fix_lemma` with a lemma name that is not among the
analysis's declarations, or with replacement code containing no
declaration of that name, leaves every component of the analysis state
unchanged (the state is returned as-is; this also covers the `TypeError`
path reached when no subproblem is cached, since nothing has been mutated
at that point). -/
theorem c10_fix_lemma_noop (pa : ProofAnalysis) (n code : String)
    (h : dictFind pa.declarations n = none ∨
      (extractFixedDecls (splitNl code)).find? (fun d => d.name == n) = none) :
    (fix_lemma pa n code).1 = pa := by
  unfold fix_lemma
  rcases h with h | h
  · simp [h]
  · cases hf : dictFind pa.declarations n with
    | none => simp
    | some d =>
      cases hc : d.original_subproblem with
      | none => simp [hc]
      | some cached =>
        simp only [hc]
        by_cases he : cached.1 == ""
        · cases hci : construct_subproblem_internal pa n with
          | none => simp [he, hci]
          | some sp => simp [he, hci, h]
        · simp [he, h]

theorem c10_witness :
    dictFind c10pa.declarations "zz" = none ∧
    (fix_lemma c10pa "zz" "theorem a1 : True := trivial").1 = c10pa := by
  constructor
  · decide
  · exact c10_fix_lemma_noop c10pa "zz" "theorem a1 : True := trivial" (Or.inl (by decide))

/-! ## Claim C3: supporting lemmas for the heap dispatch order -/

theorem keyLE_refl (a : InfTask) : keyLE a a = true := by
  simp [keyLE]

theorem keyLE_trans {a b c : InfTask} (h1 : keyLE a b = true) (h2 : keyLE b c = true) :
    keyLE a c = true := by
  simp only [keyLE, Bool.or_eq_true, Bool.and_eq_true, decide_eq_true_eq, beq_iff_eq]
    at h1 h2 ⊢
  rcases h1 with h1 | ⟨h1, h1'⟩ <;> rcases h2 with h2 | ⟨h2, h2'⟩ <;>
    first
      | (left; omega)
      | (right; constructor <;> omega)

theorem keyLE_total {a b : InfTask} (h : keyLE a b = false) : keyLE b a = true := by
  simp only [keyLE, Bool.or_eq_false_iff, Bool.or_eq_true, Bool.and_eq_false_iff,
    Bool.and_eq_true, decide_eq_true_eq, decide_eq_false_iff_not, beq_iff_eq,
    beq_eq_false_iff_ne, ne_eq] at h ⊢
  by_cases hp : b.priority = a.priority
  · rcases h with ⟨h1, h2⟩
    rcases h2 with h2 | h2
    · exact absurd hp.symm h2
    · right
      exact ⟨hp, by omega⟩
  · left
    rcases h with ⟨h1, _⟩
    rcases lt_trichotomy a.priority b.priority with hlt | heq | hgt
    · exact absurd hlt h1
    · exact absurd heq.symm hp
    · exact hgt

theorem keyLT_not_rev {a b : InfTask} (h : keyLT a b = true) : keyLE b a = false := by
  simp only [keyLT, Bool.or_eq_true, Bool.and_eq_true, decide_eq_true_eq, beq_iff_eq] at h
  simp only [keyLE, Bool.or_eq_false_iff, Bool.and_eq_false_iff, decide_eq_false_iff_not,
    beq_eq_false_iff_ne, ne_eq]
  rcases h with h | ⟨h, h'⟩
  · constructor
    · omega
    · left
      omega
  · constructor
    · omega
    · right
      omega

theorem keyLT_irrefl (a : InfTask) : keyLT a a = false := by
  simp [keyLT]

theorem selectMin_mem_cons (t : InfTask) (l : List InfTask) : selectMin t l ∈ t :: l := by
  induction l generalizing t with
  | nil => exact List.mem_cons_self t []
  | cons u rest ih =>
    unfold selectMin
    by_cases h : keyLE t u = true
    · rw [if_pos h]
      rcases List.mem_cons.mp (ih t) with h1 | h1
      · rw [h1]
        exact List.mem_cons_self t (u :: rest)
      · exact List.mem_cons_of_mem t (List.mem_cons_of_mem u h1)
    · rw [if_neg h]
      rcases List.mem_cons.mp (ih u) with h1 | h1
      · rw [h1]
        exact List.mem_cons_of_mem t (List.mem_cons_self u rest)
      · exact List.mem_cons_of_mem t (List.mem_cons_of_mem u h1)

theorem selectMin_le (t : InfTask) (l : List InfTask) :
    ∀ x, x ∈ t :: l → keyLE (selectMin t l) x = true := by
  induction l generalizing t with
  | nil =>
    intro x hx
    rcases List.mem_cons.mp hx with rfl | hx
    · exact keyLE_refl x
    · cases hx
  | cons u rest ih =>
    intro x hx
    unfold selectMin
    by_cases h : keyLE t u = true
    · rw [if_pos h]
      rcases List.mem_cons.mp hx with h1 | hx'
      · rw [h1]
        exact ih t t (List.mem_cons_self t rest)
      · rcases List.mem_cons.mp hx' with h1 | hx''
        · rw [h1]
          exact keyLE_trans (ih t t (List.mem_cons_self t rest)) h
        · exact ih t x (List.mem_cons_of_mem t hx'')
    · rw [if_neg h]
      rcases List.mem_cons.mp hx with h1 | hx'
      · rw [h1]
        exact keyLE_trans (ih u u (List.mem_cons_self u rest))
          (keyLE_total (Bool.eq_false_iff.mpr h))
      · rcases List.mem_cons.mp hx' with h1 | hx''
        · rw [h1]
          exact ih u u (List.mem_cons_self u rest)
        · exact ih u x (List.mem_cons_of_mem u hx'')

theorem dispatchAux_subset :
    ∀ (fuel : Nat) (q : List InfTask) (x : InfTask), x ∈ dispatchAux fuel q → x ∈ q := by
  intro fuel
  induction fuel with
  | zero =>
    intro q x hx
    simp [dispatchAux] at hx
  | succ f ih =>
    intro q x hx
    cases q with
    | nil => simp [dispatchAux, dequeueMin] at hx
    | cons t rest =>
      simp only [dispatchAux, dequeueMin, List.mem_cons] at hx
      rcases hx with h1 | hx
      · rw [h1]
        exact selectMin_mem_cons t rest
      · exact List.erase_subset _ _ (ih _ _ hx)

theorem dispatchAux_mem :
    ∀ (fuel : Nat) (q : List InfTask) (x : InfTask),
      q.length ≤ fuel → x ∈ q → x ∈ dispatchAux fuel q := by
  intro fuel
  induction fuel with
  | zero =>
    intro q x hlen hx
    rw [List.length_eq_zero.mp (Nat.le_zero.mp hlen)] at hx
    cases hx
  | succ f ih =>
    intro q x hlen hx
    cases q with
    | nil => cases hx
    | cons t rest =>
      simp only [dispatchAux, dequeueMin, List.mem_cons]
      by_cases hm : x = selectMin t rest
      · exact Or.inl hm
      · refine Or.inr (ih _ x ?_ ?_)
        · have hc := List.length_erase_of_mem (selectMin_mem_cons t rest)
          simp only [List.length_cons] at hlen hc
          omega
        · exact (List.mem_erase_of_ne hm).mpr hx

theorem dispatchAux_pairwise :
    ∀ (fuel : Nat) (q : List InfTask), q.length ≤ fuel →
      List.Pairwise (fun a b => keyLE a b = true) (dispatchAux fuel q) := by
  intro fuel
  induction fuel with
  | zero =>
    intro q hlen
    simp [dispatchAux]
  | succ f ih =>
    intro q hlen
    cases q with
    | nil => simp [dispatchAux, dequeueMin]
    | cons t rest =>
      simp only [dispatchAux, dequeueMin]
      have hlen' : ((t :: rest).erase (selectMin t rest)).length ≤ f := by
        have hc := List.length_erase_of_mem (selectMin_mem_cons t rest)
        simp only [List.length_cons] at hlen hc
        omega
      refine List.Pairwise.cons ?_ (ih _ hlen')
      intro x hx
      have hx' : x ∈ (t :: rest).erase (selectMin t rest) := dispatchAux_subset _ _ _ hx
      exact selectMin_le t rest x (List.erase_subset _ _ hx')

/-- **C3.**  The inference scheduler's queue entries are
`(priority, count, task, future)` popped by heap minimum: among the tasks
waiting when a worker dequeues, one with a strictly smaller priority
number is dispatched before one with a larger priority, and among equal
priorities the smaller submission counter — i.e. FIFO submission order,
since `inference` stamps each task with the incrementing `_task_counter` —
goes first.  `keyLT t1 t2` states exactly "smaller priority, or equal
priority and earlier submission". -/
theorem c3_priority_dispatch (q : List InfTask) (t1 t2 : InfTask)
    (h1 : t1 ∈ q) (h2 : t2 ∈ q) (hk : keyLT t1 t2 = true) :
    (∃ i, (dispatchOrder q).get? i = some t1) ∧
    (∃ j, (dispatchOrder q).get? j = some t2) ∧
    (∀ i j, (dispatchOrder q).get? i = some t1 →
      (dispatchOrder q).get? j = some t2 → i < j) := by
  have hm1 : t1 ∈ dispatchOrder q := dispatchAux_mem _ _ _ le_rfl h1
  have hm2 : t2 ∈ dispatchOrder q := dispatchAux_mem _ _ _ le_rfl h2
  have hpw : List.Pairwise (fun a b => keyLE a b = true) (dispatchOrder q) :=
    dispatchAux_pairwise _ _ le_rfl
  refine ⟨?_, ?_, ?_⟩
  · obtain ⟨k, hk'⟩ := List.get_of_mem hm1
    exact ⟨k, by rw [List.get?_eq_get k.isLt, hk']⟩
  · obtain ⟨k, hk'⟩ := List.get_of_mem hm2
    exact ⟨k, by rw [List.get?_eq_get k.isLt, hk']⟩
  · intro i j hi hj
    have hi' := List.get?_eq_some.mp hi
    have hj' := List.get?_eq_some.mp hj
    obtain ⟨hilt, hig⟩ := hi'
    obtain ⟨hjlt, hjg⟩ := hj'
    rcases Nat.lt_trichotomy i j with h | h | h
    · exact h
    · exfalso
      subst h
      rw [hig] at hjg
      subst hjg
      rw [keyLT_irrefl] at hk
      cases hk
    · exfalso
      have := (List.pairwise_iff_get.mp hpw) ⟨j, hjlt⟩ ⟨i, hilt⟩ h
      rw [hig, hjg] at this
      rw [keyLT_not_rev hk] at this
      cases this

/-! ## Claim C9: supporting string lemmas -/

theorem splitChAux_ne_nil (c : Char) (s acc : List Char) : splitChAux c s acc ≠ [] := by
  induction s generalizing acc with
  | nil => simp [splitChAux]
  | cons d t ih =>
    unfold splitChAux
    by_cases h : (d == c) = true
    · rw [if_pos h]
      simp
    · rw [if_neg h]
      exact ih _

theorem joinNlL_cons (x : List Char) (l : List (List Char)) (h : l ≠ []) :
    joinNlL (x :: l) = x ++ '\n' :: joinNlL l := by
  cases l with
  | nil => exact absurd rfl h
  | cons y rest => rfl

theorem joinNlL_splitChAux (s acc : List Char) :
    joinNlL (splitChAux '\n' s acc) = acc.reverse ++ s := by
  induction s generalizing acc with
  | nil => simp [splitChAux, joinNlL]
  | cons d t ih =>
    unfold splitChAux
    by_cases h : (d == '\n') = true
    · rw [if_pos h, joinNlL_cons _ _ (splitChAux_ne_nil _ _ _), ih []]
      have hd : d = '\n' := beq_iff_eq.mp h
      simp [hd]
    · rw [if_neg h, ih (d :: acc)]
      simp

/-- `chr(10).join(s.split(chr(10))) = s`. -/
theorem joinNl_splitNl (s : String) : joinNl (splitNl s) = s := by
  unfold joinNl splitNl splitCh
  rw [List.map_map]
  have h1 : (String.data ∘ fun x : List Char => (⟨x⟩ : String)) = id := rfl
  rw [h1, List.map_id, joinNlL_splitChAux]
  cases s
  simp

theorem splitChAux_no_sep_id (c : Char) (x acc : List Char) (h : c ∉ x) :
    splitChAux c x acc = [acc.reverse ++ x] := by
  induction x generalizing acc with
  | nil => simp [splitChAux]
  | cons d t ih =>
    unfold splitChAux
    have hd : ¬((d == c) = true) := by
      intro hc
      have : d = c := beq_iff_eq.mp hc
      subst this
      exact h (List.mem_cons_self d t)
    rw [if_neg hd, ih (d :: acc) (fun hm => h (List.mem_cons_of_mem _ hm))]
    simp

theorem splitChAux_sep_split (c : Char) (z : List Char) :
    ∀ (x acc : List Char), c ∉ x →
      splitChAux c (x ++ c :: z) acc = (acc.reverse ++ x) :: splitChAux c z [] := by
  intro x
  induction x with
  | nil =>
    intro acc _
    have h1 : splitChAux c (([] : List Char) ++ c :: z) acc =
        if (c == c) = true then acc.reverse :: splitChAux c z []
        else splitChAux c z (c :: acc) := rfl
    rw [h1, if_pos (by simp)]
    simp
  | cons d t ih =>
    intro acc h
    have hd : ¬((d == c) = true) := by
      intro hc
      have : d = c := beq_iff_eq.mp hc
      subst this
      exact h (List.mem_cons_self d t)
    have h1 : splitChAux c ((d :: t) ++ c :: z) acc =
        if (d == c) = true then acc.reverse :: splitChAux c (t ++ c :: z) []
        else splitChAux c (t ++ c :: z) (d :: acc) := rfl
    rw [h1, if_neg hd, ih (d :: acc) (fun hm => h (List.mem_cons_of_mem _ hm))]
    simp

theorem splitCh_joinNlL (ps : List (List Char)) (hne : ps ≠ [])
    (hnl : ∀ p ∈ ps, '\n' ∉ p) : splitCh '\n' (joinNlL ps) = ps := by
  induction ps with
  | nil => exact absurd rfl hne
  | cons x rest ih =>
    cases rest with
    | nil =>
      show splitChAux '\n' x [] = [x]
      rw [splitChAux_no_sep_id '\n' x [] (hnl x (List.mem_cons_self x []))]
      rfl
    | cons y rest' =>
      show splitChAux '\n' (x ++ '\n' :: joinNlL (y :: rest')) [] = _
      rw [splitChAux_sep_split '\n' _ x [] (hnl x (List.mem_cons_self _ _))]
      have := ih (by simp) (fun p hp => hnl p (List.mem_cons_of_mem _ hp))
      unfold splitCh at this
      rw [this]
      rfl

/-- `s.split(chr(10))` of a join of newline-free lines gives the lines back. -/
theorem splitNl_joinNl (ls : List String) (hne : ls ≠ [])
    (hnl : ∀ l ∈ ls, '\n' ∉ l.data) : splitNl (joinNl ls) = ls := by
  unfold splitNl joinNl
  have h1 : splitCh '\n' (joinNlL (ls.map String.data)) = ls.map String.data := by
    refine splitCh_joinNlL _ (by simpa using hne) ?_
    intro p hp
    obtain ⟨l, hl, rfl⟩ := List.mem_map.mp hp
    exact hnl l hl
  rw [show (String.data ⟨joinNlL (List.map String.data ls)⟩) = joinNlL (ls.map String.data)
    from rfl, h1, List.map_map]
  have h2 : ((fun x : List Char => (⟨x⟩ : String)) ∘ String.data) = id := by
    funext s
    rfl
  rw [h2, List.map_id]

theorem joinNl_ne_empty (ls : List String) (hne : ls ≠ []) (hlast : ls.getLast? ≠ some "") :
    joinNl ls ≠ "" := by
  cases ls with
  | nil => exact absurd rfl hne
  | cons x rest =>
    cases rest with
    | nil =>
      intro h
      apply hlast
      simp only [List.getLast?_singleton]
      have : x = "" := by
        have hd : x.data = [] := congrArg String.data h
        cases x
        simp at hd
        simp [hd]
      rw [this]
    | cons y rest' =>
      intro h
      have hd : joinNlL (String.data x :: String.data y :: rest'.map String.data) = [] :=
        congrArg String.data h
      rw [joinNlL_cons _ _ (by simp)] at hd
      simp at hd

/-- `splitlines` of a join of newline-free lines whose last line is
nonempty gives the lines back. -/
theorem splitlinesPy_joinNl (ls : List String) (hne : ls ≠ [])
    (hnl : ∀ l ∈ ls, '\n' ∉ l.data) (hlast : ls.getLast? ≠ some "") :
    splitlinesPy (joinNl ls) = ls := by
  unfold splitlinesPy
  rw [if_neg (joinNl_ne_empty ls hne hlast), splitNl_joinNl ls hne hnl, if_neg hlast]

theorem joinNlL_append (a b : List (List Char)) (ha : a ≠ []) (hb : b ≠ []) :
    joinNlL (a ++ b) = joinNlL a ++ '\n' :: joinNlL b := by
  induction a with
  | nil => exact absurd rfl ha
  | cons x rest ih =>
    cases rest with
    | nil =>
      simp only [List.singleton_append]
      rw [joinNlL_cons _ _ hb]
      rfl
    | cons y rest' =>
      have h1 : ((x :: y :: rest') ++ b) = x :: ((y :: rest') ++ b) := rfl
      rw [h1, joinNlL_cons _ _ (by simp), ih (by simp),
        joinNlL_cons x (y :: rest') (by simp)]
      simp

theorem joinNl_append (a b : List String) (ha : a ≠ []) (hb : b ≠ []) :
    joinNl (a ++ b) = joinNl a ++ "\n" ++ joinNl b := by
  have h2 := joinNlL_append (a.map String.data) (b.map String.data)
    (by simpa using ha) (by simpa using hb)
  apply String.ext
  show joinNlL ((a ++ b).map String.data) = _
  rw [List.map_append, h2]
  have h3 : (joinNl a ++ "\n" ++ joinNl b).data =
      joinNlL (a.map String.data) ++ ['\n'] ++ joinNlL (b.map String.data) := rfl
  rw [h3]
  simp

theorem rstripL_append_space (x : List Char) (c : Char) (hc : isSpaceChar c = true) :
    rstripL (x ++ [c]) = rstripL x := by
  unfold rstripL
  rw [List.reverse_append]
  simp [List.dropWhile, hc]

theorem rstripPy_append_nl (x : String) : rstripPy (x ++ "\n") = rstripPy x := by
  unfold rstripPy
  have h1 : (x ++ "\n").data = x.data ++ ['\n'] := rfl
  rw [h1, rstripL_append_space x.data '\n' rfl]

theorem rstripPy_empty_append (x : String) : x ++ "" = x := by
  cases x
  show String.mk _ = _
  simp [String.append]

theorem splitImportLoop_nil (saw : Bool) (imps body : List String) :
    splitImportLoop [] saw imps body = (imps.reverse, body.reverse) := rfl

theorem splitImportLoop_cons (line : String) (rest : List String) (saw : Bool)
    (imps body : List String) :
    splitImportLoop (line :: rest) saw imps body =
      if startsWithPy "import" (stripPy line) = true then
        splitImportLoop rest true (stripPy line :: imps) body
      else if saw = true then (imps.reverse, line :: rest)
      else splitImportLoop rest saw imps (line :: body) := rfl

/-! ## Claim C9 -/

/-- **C9 counterexample.**  (i) `split_import_and_body` canonicalises
an import block that is a subset of `DEFAULT_IMPORTS`, so recombining
the pieces inserts an `import Aesop` line that was not in the source;
(ii) `_extract_header` strips the blank lines around the header block, so
recombining loses leading blank lines.  Neither difference is trailing
whitespace. -/
theorem c9_counterexample :
    rstripPy (recombineSplit c9src) ≠ rstripPy c9src ∧
    rstripPy (recombineHeader c9hdrsrc) ≠ rstripPy c9hdrsrc := by
  constructor
  · decide
  · decide

/-- **C9 (amended).**  The round-trip holds only under conditions: for a
source that starts with a nonempty block of flush-left `import` lines not
wholly contained in `DEFAULT_IMPORTS`, splitting into import block and
body and recombining yields the source up to trailing whitespace; and for
a source whose header block carries no surrounding whitespace, extracting
the header and recombining with the remaining lines yields the source up
to trailing whitespace.  In general the round-trip fails (canonicalisation
to the default imports; text before the first import is dropped; the
header is stripped). -/
theorem c9_amended (imps rest hd tl : List String)
    (hinl : ∀ l ∈ imps ++ rest, '\n' ∉ l.data)
    (hine : imps ≠ [])
    (hilast : (imps ++ rest).getLast? ≠ some "")
    (himp : ∀ l ∈ imps, startsWithPy "import" l = true ∧ stripPy l = l)
    (hrest : ∀ r, rest.head? = some r → startsWithPy "import" (stripPy r) = false)
    (hsub : ¬(∀ l ∈ imps, l ∈ defaultImportLines))
    (histrip : stripPy (joinNl imps) = joinNl imps)
    (hhnl : ∀ l ∈ hd ++ tl, '\n' ∉ l.data)
    (hhne : hd ≠ [])
    (hhdr : ∀ l ∈ hd, isHeaderLine l = true)
    (htl : ∀ r, tl.head? = some r → isHeaderLine r = false)
    (hhstrip : stripPy (joinNl hd) = joinNl hd) :
    rstripPy (recombineSplit (joinNl (imps ++ rest))) = rstripPy (joinNl (imps ++ rest)) ∧
    rstripPy (recombineHeader (joinNl (hd ++ tl))) = rstripPy (joinNl (hd ++ tl)) := by
  constructor
  · have hsplit : splitlinesPy (joinNl (imps ++ rest)) = imps ++ rest :=
      splitlinesPy_joinNl _ (by simp [hine]) hinl hilast
    have main : ∀ (xs : List String) (accI accB : List String),
        (∀ l ∈ xs, startsWithPy "import" l = true ∧ stripPy l = l) →
        splitImportLoop (xs ++ rest) true accI accB =
          (accI.reverse ++ xs, if rest.isEmpty then accB.reverse else rest) := by
      intro xs
      induction xs with
      | nil =>
        intro accI accB _
        cases hr : rest with
        | nil => simp [splitImportLoop_nil]
        | cons r rest' =>
          have hri := hrest r (by rw [hr]; rfl)
          show splitImportLoop (r :: rest') true accI accB = _
          rw [splitImportLoop_cons, if_neg (by simp [hri]), if_pos rfl]
          simp
      | cons l xs' ih =>
        intro accI accB hall
        have hl := hall l (List.mem_cons_self _ _)
        show splitImportLoop (l :: (xs' ++ rest)) true accI accB = _
        rw [splitImportLoop_cons, hl.2, if_pos hl.1,
          ih (l :: accI) accB (fun x hx => hall x (List.mem_cons_of_mem _ hx))]
        simp
    have hloop : splitImportLoop (imps ++ rest) false [] [] = (imps, rest) := by
      cases imps with
      | nil => exact absurd rfl hine
      | cons l0 imps' =>
        have h0 := himp l0 (List.mem_cons_self _ _)
        have hstep : splitImportLoop ((l0 :: imps') ++ rest) false [] [] =
            splitImportLoop (imps' ++ rest) true [stripPy l0] [] := by
          show splitImportLoop (l0 :: (imps' ++ rest)) false [] [] = _
          rw [splitImportLoop_cons, if_pos (by rw [h0.2]; exact h0.1)]
        rw [hstep, h0.2,
          main imps' [l0] [] (fun x hx => himp x (List.mem_cons_of_mem _ hx))]
        cases hr : rest with
        | nil => simp
        | cons r rest' => simp
    have hall : (imps.all (fun l => defaultImportLines.contains l)) = false := by
      rw [Bool.eq_false_iff]
      intro hallt
      apply hsub
      intro l hl
      have h5 := List.all_eq_true.mp hallt l hl
      simpa using h5
    simp only [recombineSplit, split_import_and_body, hsplit, hloop, hall,
      Bool.false_eq_true, if_false]
    rw [histrip]
    cases hr : rest with
    | nil =>
      show rstripPy (joinNl imps ++ "\n" ++ joinNl []) = _
      have h6 : joinNl ([] : List String) = "" := rfl
      rw [h6, rstripPy_empty_append, rstripPy_append_nl]
      simp
    | cons r rest' =>
      rw [joinNl_append imps (r :: rest') hine (by simp)]
  · have hsplit2 : splitNl (joinNl (hd ++ tl)) = hd ++ tl :=
      splitNl_joinNl _ (by simp [hhne]) hhnl
    have htake : ∀ (a : List String), (∀ l ∈ a, isHeaderLine l = true) →
        (a ++ tl).takeWhile isHeaderLine = a := by
      intro a
      induction a with
      | nil =>
        intro _
        cases ht : tl with
        | nil => rfl
        | cons r rest' =>
          have hrl := htl r (by rw [ht]; rfl)
          show List.takeWhile isHeaderLine (r :: rest') = []
          simp [List.takeWhile, hrl]
      | cons x a' ih =>
        intro hall
        show List.takeWhile isHeaderLine (x :: (a' ++ tl)) = _
        simp only [List.takeWhile, hall x (List.mem_cons_self _ _)]
        rw [ih (fun l hl => hall l (List.mem_cons_of_mem _ hl))]
    simp only [recombineHeader, extract_header, hsplit2]
    rw [htake hd hhdr, hhstrip, List.drop_left]
    cases ht : tl with
    | nil =>
      show rstripPy (joinNl hd ++ "\n" ++ joinNl []) = _
      have h0 : joinNl ([] : List String) = "" := rfl
      rw [h0, rstripPy_empty_append, rstripPy_append_nl]
      simp
    | cons r rest' =>
      rw [joinNl_append hd (r :: rest') hhne (by simp)]

theorem c9_witness :
    rstripPy (recombineSplit (joinNl (["import Mathlib", "import Foo"] ++
        ["", "theorem z1 : True := trivial"]))) =
      rstripPy (joinNl (["import Mathlib", "import Foo"] ++
        ["", "theorem z1 : True := trivial"])) ∧
    rstripPy (recombineHeader (joinNl (["import Mathlib"] ++
        ["theorem z2 : True := trivial"]))) =
      rstripPy (joinNl (["import Mathlib"] ++ ["theorem z2 : True := trivial"])) := by
  exact c9_amended ["import Mathlib", "import Foo"] ["", "theorem z1 : True := trivial"]
    ["import Mathlib"] ["theorem z2 : True := trivial"]
    (by decide) (by decide) (by decide) (by decide) (by decide) (by decide) (by decide)
    (by decide) (by decide) (by decide) (by decide) (by decide)

/-! ## Claim C1: supporting lemmas -/

theorem mem_setAdd (xs : List String) (n m : String) :
    m ∈ setAdd xs n ↔ m ∈ xs ∨ m = n := by
  unfold setAdd
  by_cases h : xs.contains n = true
  · rw [if_pos h]
    constructor
    · exact Or.inl
    · rintro (hm | rfl)
      · exact hm
      · simpa using h
  · rw [if_neg h]
    simp

theorem alistFind_aux_mem {α : Type} (n : String) (v : α) :
    ∀ xs : List (String × α), xs.any (fun p => p.1 == n) = true →
      List.find? (fun p => p.1 == n) (xs.map (fun p => if p.1 == n then (n, v) else p)) =
        some (n, v) := by
  intro xs
  induction xs with
  | nil =>
    intro h
    cases h
  | cons p xs' ih =>
    intro h
    by_cases hp : (p.1 == n) = true
    · rw [List.map_cons, if_pos hp, List.find?_cons_of_pos]
      simp
    · rw [List.map_cons, if_neg hp, List.find?_cons_of_neg]
      · apply ih
        simp only [List.any_cons, hp, Bool.false_or] at h
        exact h
      · exact hp

theorem alistFind_aux_nomem {α : Type} (n : String) (v : α) :
    ∀ xs : List (String × α), xs.any (fun p => p.1 == n) = false →
      List.find? (fun p => p.1 == n) (xs ++ [(n, v)]) = some (n, v) := by
  intro xs
  induction xs with
  | nil =>
    intro _
    rw [List.nil_append, List.find?_cons_of_pos]
    simp
  | cons p xs' ih =>
    intro h
    simp only [List.any_cons, Bool.or_eq_false_iff] at h
    rw [List.cons_append, List.find?_cons_of_neg]
    · exact ih h.2
    · simp [h.1]

theorem alistFind_insert_self {α : Type} (xs : List (String × α)) (n : String) (v : α) :
    alistFind (alistInsert xs n v) n = some v := by
  unfold alistInsert alistFind
  by_cases h : xs.any (fun p => p.1 == n) = true
  · rw [if_pos h, alistFind_aux_mem n v xs h]
    rfl
  · rw [if_neg h, alistFind_aux_nomem n v xs (Bool.eq_false_iff.mpr h)]
    rfl

theorem find_map_other {α : Type} (n m : String) (v : α) (hne : m ≠ n) :
    ∀ xs : List (String × α),
      List.find? (fun p => p.1 == m) (xs.map (fun p => if p.1 == n then (n, v) else p)) =
        List.find? (fun p => p.1 == m) xs := by
  intro xs
  induction xs with
  | nil => rfl
  | cons p xs' ih =>
    by_cases hp : (p.1 == n) = true
    · have h1 : ((n, v).1 == m) = false := by
        simp only [beq_eq_false_iff_ne, ne_eq]
        exact fun hc => hne hc.symm
      have h2 : (p.1 == m) = false := by
        have hp' : p.1 = n := beq_iff_eq.mp hp
        simp only [hp', beq_eq_false_iff_ne, ne_eq]
        exact fun hc => hne hc.symm
      simp only [List.map_cons, if_pos hp, List.find?_cons, h1, h2]
      exact ih
    · simp only [List.map_cons, if_neg hp, List.find?_cons]
      by_cases hpm : (p.1 == m) = true
      · simp [hpm]
      · simp only [hpm]
        exact ih

theorem find_append_single {α : Type} (n m : String) (v : α) (hne : m ≠ n) :
    ∀ xs : List (String × α),
      List.find? (fun p => p.1 == m) (xs ++ [(n, v)]) =
        List.find? (fun p => p.1 == m) xs := by
  intro xs
  induction xs with
  | nil =>
    have h1 : ((n, v).1 == m) = false := by
      simp only [beq_eq_false_iff_ne, ne_eq]
      exact fun hc => hne hc.symm
    simp [List.find?_cons, h1, List.find?]
  | cons p xs' ih =>
    simp only [List.cons_append, List.find?_cons]
    by_cases hpm : (p.1 == m) = true
    · simp [hpm]
    · simp only [hpm]
      exact ih

theorem alistFind_insert_ne {α : Type} (xs : List (String × α)) (n m : String) (v : α)
    (hne : m ≠ n) : alistFind (alistInsert xs n v) m = alistFind xs m := by
  unfold alistInsert alistFind
  by_cases h : xs.any (fun p => p.1 == n) = true
  · rw [if_pos h, find_map_other n m v hne xs]
  · rw [if_neg h, find_append_single n m v hne xs]

theorem any_eq_false_name {ds : List Decl} {n : String}
    (h : (ds.any (fun e => e.name == n)) = false) : n ∉ ds.map (·.name) := by
  intro hmem
  obtain ⟨e, he, hne⟩ := List.mem_map.mp hmem
  have h2 : ds.any (fun e => e.name == n) = true :=
    List.any_eq_true.mpr ⟨e, he, by simp [hne]⟩
  rw [h] at h2
  cases h2

theorem dictInsert_names (ds : List Decl) (d : Decl) :
    (dictInsert ds d).map (·.name) =
      if ds.any (fun e => e.name == d.name) = true then ds.map (·.name)
      else ds.map (·.name) ++ [d.name] := by
  unfold dictInsert
  by_cases h : ds.any (fun e => e.name == d.name) = true
  · rw [if_pos h, if_pos h, List.map_map]
    apply List.map_congr_left
    intro e _
    show (if (e.name == d.name) = true then d else e).name = e.name
    by_cases he2 : (e.name == d.name) = true
    · rw [if_pos he2, beq_iff_eq.mp he2]
    · rw [if_neg he2]
  · rw [if_neg h, if_neg h]
    simp

theorem dictInsert_names_nodup (ds : List Decl) (d : Decl)
    (h : (ds.map (·.name)).Nodup) : ((dictInsert ds d).map (·.name)).Nodup := by
  rw [dictInsert_names]
  by_cases hany : ds.any (fun e => e.name == d.name) = true
  · rw [if_pos hany]
    exact h
  · rw [if_neg hany]
    have hnm := any_eq_false_name (Bool.eq_false_iff.mpr hany)
    rw [List.nodup_append]
    refine ⟨h, List.nodup_singleton _, ?_⟩
    intro x hx hx2
    rw [List.mem_singleton.mp hx2] at hx
    exact hnm hx

theorem firstPass_nodup (lines : List String) : ((firstPass lines).map (·.name)).Nodup := by
  unfold firstPass
  suffices h : ∀ (ps : List (Nat × String)) (acc : List Decl), ((acc.map (·.name)).Nodup) →
      ((ps.foldl (fun ds p =>
        match matchDecl p.2 with
        | some (k, n) => dictInsert ds (mkNewDecl n k (p.1 + 1))
        | none => ds) acc).map (·.name)).Nodup by
    exact h _ [] (by simp)
  intro ps
  induction ps with
  | nil =>
    intro acc h
    exact h
  | cons p ps' ih =>
    intro acc h
    rw [List.foldl_cons]
    cases hm : matchDecl p.2 with
    | none =>
      exact ih acc h
    | some kn =>
      obtain ⟨k, n⟩ := kn
      exact ih _ (dictInsert_names_nodup _ _ h)

theorem thirdPassOne_name (ns : List String) (d : Decl) : (thirdPassOne ns d).name = d.name := by
  unfold thirdPassOne
  by_cases h : (d.kind == DeclKind.axm) = true
  · rw [if_pos h]
  · rw [if_neg h]

theorem extract_names (lines : List String) :
    (extract_declarations lines).map (·.name) = (firstPass lines).map (·.name) := by
  simp only [extract_declarations]
  rw [List.map_map, List.map_map]
  apply List.map_congr_left
  intro d _
  simp only [Function.comp_apply]
  rw [thirdPassOne_name]
  cases hf : List.find? (fun u => u.name == d.name)
      (secondPassList lines lines.length (sortByStart (firstPass lines))) with
  | none => rfl
  | some u =>
    show u.name = d.name
    have h2 := List.find?_some hf
    exact beq_iff_eq.mp h2

theorem extract_names_nodup (lines : List String) :
    ((extract_declarations lines).map (·.name)).Nodup := by
  rw [extract_names]
  exact firstPass_nodup lines

theorem updateDecl_skel (ds : List Decl) (n : String) (f : Decl → Decl)
    (hf : ∀ d, skelD (f d) = skelD d) :
    (updateDecl ds n f).map skelD = ds.map skelD := by
  unfold updateDecl
  rw [List.map_map]
  apply List.map_congr_left
  intro d _
  show skelD (if (d.name == n) = true then f d else d) = skelD d
  by_cases h : (d.name == n) = true
  · rw [if_pos h, hf d]
  · rw [if_neg h]

theorem cache_skel (pa : ProofAnalysis) :
    (cache_subproblems pa).declarations.map skelD = pa.declarations.map skelD := by
  unfold cache_subproblems
  rw [List.map_map]
  apply List.map_congr_left
  intro d _
  show skelD (if (d.kind == DeclKind.lem || d.kind == DeclKind.thm) = true
    then { d with original_subproblem := construct_subproblem_internal pa d.name } else d) =
      skelD d
  by_cases h : (d.kind == DeclKind.lem || d.kind == DeclKind.thm) = true
  · rw [if_pos h]
    rfl
  · rw [if_neg h]

theorem verify_fold_skel (oracle : String → Except String CompilationResult)
    (pa0 : ProofAnalysis) :
    ∀ (ns : List String) (acc : ProofAnalysis),
      ((ns.foldl (verifyStep oracle pa0) acc).declarations.map skelD) =
        acc.declarations.map skelD := by
  intro ns
  induction ns with
  | nil =>
    intro acc
    rfl
  | cons n ns' ih =>
    intro acc
    rw [List.foldl_cons, ih]
    exact updateDecl_skel _ _ _ (fun d => rfl)

theorem verify_fold_results (oracle : String → Except String CompilationResult)
    (pa0 : ProofAnalysis) :
    ∀ (ns : List String) (acc : ProofAnalysis) (n : String),
      alistFind ((ns.foldl (verifyStep oracle pa0) acc).lemma_compilation_results) n =
        if n ∈ ns then some (verify_lemma_record oracle pa0 n)
        else alistFind acc.lemma_compilation_results n := by
  intro ns
  induction ns with
  | nil =>
    intro acc n
    simp
  | cons m ns' ih =>
    intro acc n
    rw [List.foldl_cons]
    by_cases hmem : n ∈ ns'
    · rw [ih _ n, if_pos hmem, if_pos (List.mem_cons_of_mem _ hmem)]
    · rw [ih _ n, if_neg hmem]
      by_cases heq : n = m
      · subst heq
        rw [if_pos (List.mem_cons_self _ _)]
        exact alistFind_insert_self _ _ _
      · rw [if_neg (by simp [heq, hmem])]
        exact alistFind_insert_ne _ _ _ _ heq

theorem verify_fold_errors (oracle : String → Except String CompilationResult)
    (pa0 : ProofAnalysis) :
    ∀ (ns : List String) (acc : ProofAnalysis) (n : String),
      (n ∈ (ns.foldl (verifyStep oracle pa0) acc).error_declarations ↔
        (n ∈ acc.error_declarations ∨
          (n ∈ ns ∧ (verify_lemma_record oracle pa0 n).complete = false))) := by
  intro ns
  induction ns with
  | nil =>
    intro acc n
    simp
  | cons m ns' ih =>
    intro acc n
    rw [List.foldl_cons, ih]
    have hstep : (verifyStep oracle pa0 acc m).error_declarations =
        if (verify_lemma_record oracle pa0 m).complete = true then acc.error_declarations
        else setAdd acc.error_declarations m := rfl
    rw [hstep]
    by_cases hc : (verify_lemma_record oracle pa0 m).complete = true
    · rw [if_pos hc]
      constructor
      · rintro (h | h)
        · exact Or.inl h
        · exact Or.inr ⟨List.mem_cons_of_mem _ h.1, h.2⟩
      · rintro (h | ⟨h1, h2⟩)
        · exact Or.inl h
        · rcases List.mem_cons.mp h1 with rfl | h1'
          · rw [hc] at h2
            cases h2
          · exact Or.inr ⟨h1', h2⟩
    · rw [if_neg hc, mem_setAdd]
      constructor
      · rintro ((h | h) | h)
        · exact Or.inl h
        · subst h
          exact Or.inr ⟨List.mem_cons_self _ _, Bool.eq_false_iff.mpr hc⟩
        · exact Or.inr ⟨List.mem_cons_of_mem _ h.1, h.2⟩
      · rintro (h | ⟨h1, h2⟩)
        · exact Or.inl (Or.inl h)
        · rcases List.mem_cons.mp h1 with rfl | h1'
          · exact Or.inl (Or.inr rfl)
          · exact Or.inr ⟨h1', h2⟩

theorem name_inj_of_nodup :
    ∀ (ds : List Decl), ((ds.map (·.name)).Nodup) →
      ∀ {d e : Decl}, d ∈ ds → e ∈ ds → d.name = e.name → d = e := by
  intro ds
  induction ds with
  | nil =>
    intro _ d e hd
    cases hd
  | cons a tl ih =>
    intro hnd d e hd he hn
    simp only [List.map_cons, List.nodup_cons] at hnd
    rcases List.mem_cons.mp hd with h1 | h1 <;> rcases List.mem_cons.mp he with h2 | h2
    · rw [h1, h2]
    · exfalso
      apply hnd.1
      rw [h1] at hn
      rw [hn]
      exact List.mem_map_of_mem _ h2
    · exfalso
      apply hnd.1
      rw [h2] at hn
      rw [← hn]
      exact List.mem_map_of_mem _ h1
    · exact ih hnd.2 h1 h2 hn

theorem mem_lemmaNamesOf (pa : ProofAnalysis) (hnd : (pa.declarations.map (·.name)).Nodup)
    (d : Decl) (hd : d ∈ pa.declarations) :
    (d.name ∈ lemmaNamesOf pa ↔ ((d.kind = .lem ∨ d.kind = .thm) ∧ d.has_proof = true)) := by
  unfold lemmaNamesOf
  constructor
  · intro h
    obtain ⟨e, he, hen⟩ := List.mem_map.mp h
    have hef := List.mem_filter.mp he
    have hde : e = d := name_inj_of_nodup _ hnd hef.1 hd hen
    rw [← hde]
    have hb := hef.2
    simp only [Bool.and_eq_true, Bool.or_eq_true, beq_iff_eq] at hb
    exact ⟨hb.1, hb.2⟩
  · rintro ⟨hk, hp⟩
    refine List.mem_map.mpr ⟨d, List.mem_filter.mpr ⟨hd, ?_⟩, rfl⟩
    simp only [Bool.and_eq_true, Bool.or_eq_true, beq_iff_eq]
    exact ⟨hk, hp⟩

/-! ## Claim C1 -/

/-- **C1.**  After `verify_all_lemmas` completes on a fresh
`ProofAnalysis`, a lemma/theorem declaration is in `error_declarations`
iff it has a proof and its recorded compilation result is not complete,
and `def`/`axiom` declarations are never in `error_declarations`.  The
scheduler is modelled as an oracle answering each verification file
(`none` models a missing compilation scheduler, in which case nothing is
recorded and nothing is an error). -/
theorem c1_verify_invariant (code : String)
    (scheduler : Option (String → Except String CompilationResult))
    (pa' : ProofAnalysis) (hpa : pa' = verify_all_lemmas scheduler (mkAnalysis code)) :
    ∀ d ∈ pa'.declarations,
      ((d.kind = .lem ∨ d.kind = .thm) →
        (d.name ∈ pa'.error_declarations ↔
          (d.has_proof = true ∧
            ∃ r, alistFind pa'.lemma_compilation_results d.name = some r ∧
              r.complete = false))) ∧
      ((d.kind = .axm ∨ d.kind = .dfn) → d.name ∉ pa'.error_declarations) := by
  intro d hd
  have hdone : (mkAnalysis code).verification_done = false := rfl
  cases scheduler with
  | none =>
    have hpa' : pa' = mkAnalysis code := by
      rw [hpa]
      unfold verify_all_lemmas
      rw [hdone]
      rfl
    subst hpa'
    constructor
    · intro _
      constructor
      · intro h
        cases h
      · rintro ⟨_, r, hr, _⟩
        cases hr
    · intro _ h
      cases h
  | some oracle =>
    have hpa1 : pa' = cache_subproblems
        { (lemmaNamesOf (mkAnalysis code)).foldl (verifyStep oracle (mkAnalysis code))
            (mkAnalysis code) with verification_done := true } := by
      rw [hpa]
      unfold verify_all_lemmas
      rw [hdone]
      rfl
    set pa0 := mkAnalysis code with hpa0
    set paF := (lemmaNamesOf pa0).foldl (verifyStep oracle pa0) pa0 with hpaF
    have herr : pa'.error_declarations = paF.error_declarations := by rw [hpa1]; rfl
    have hres : pa'.lemma_compilation_results = paF.lemma_compilation_results := by
      rw [hpa1]; rfl
    have hnd0 : ((pa0.declarations.map (·.name)).Nodup) := extract_names_nodup _
    have hskel : pa'.declarations.map skelD = pa0.declarations.map skelD := by
      rw [hpa1]
      have h1 := cache_skel { paF with verification_done := true }
      have h2 : ({ paF with verification_done := true } : ProofAnalysis).declarations =
        paF.declarations := rfl
      rw [h1, h2, hpaF, verify_fold_skel]
    have hd0 : ∃ d0 ∈ pa0.declarations, d0.name = d.name ∧ d0.kind = d.kind ∧
        d0.has_proof = d.has_proof := by
      have hmem : skelD d ∈ pa'.declarations.map skelD := List.mem_map_of_mem _ hd
      rw [hskel] at hmem
      obtain ⟨d0, hd0m, hsk⟩ := List.mem_map.mp hmem
      unfold skelD at hsk
      refine ⟨d0, hd0m, ?_, ?_, ?_⟩
      · exact congrArg Prod.fst hsk
      · exact congrArg (Prod.fst ∘ Prod.snd) hsk
      · exact congrArg (Prod.snd ∘ Prod.snd) hsk
    obtain ⟨d0, hd0m, hname, hkind, hproof⟩ := hd0
    have hmemname : d.name ∈ lemmaNamesOf pa0 ↔
        ((d.kind = .lem ∨ d.kind = .thm) ∧ d.has_proof = true) := by
      rw [← hname, ← hkind, ← hproof]
      exact mem_lemmaNamesOf pa0 hnd0 d0 hd0m
    have herr2 : ∀ n, n ∈ paF.error_declarations ↔
        (n ∈ lemmaNamesOf pa0 ∧ (verify_lemma_record oracle pa0 n).complete = false) := by
      intro n
      rw [hpaF, verify_fold_errors]
      have h0 : pa0.error_declarations = [] := rfl
      rw [h0]
      simp
    have hres2 : ∀ n, alistFind paF.lemma_compilation_results n =
        if n ∈ lemmaNamesOf pa0 then some (verify_lemma_record oracle pa0 n) else none := by
      intro n
      rw [hpaF, verify_fold_results]
      have h0 : pa0.lemma_compilation_results = [] := rfl
      rw [h0]
      rfl
    constructor
    · intro hkinds
      rw [herr, herr2, hres]
      by_cases hp : d.has_proof = true
      · have hmem : d.name ∈ lemmaNamesOf pa0 := hmemname.mpr ⟨hkinds, hp⟩
        rw [hres2, if_pos hmem]
        constructor
        · rintro ⟨_, hc⟩
          exact ⟨hp, verify_lemma_record oracle pa0 d.name, rfl, hc⟩
        · rintro ⟨_, r, hr, hc⟩
          cases hr
          exact ⟨hmem, hc⟩
      · have hmem : d.name ∉ lemmaNamesOf pa0 := by
          intro hc
          exact hp (hmemname.mp hc).2
        constructor
        · rintro ⟨hc, _⟩
          exact absurd hc hmem
        · rintro ⟨hc, _⟩
          exact absurd hc hp
    · intro hkinds hmem
      rw [herr, herr2] at hmem
      have := hmemname.mp hmem.1
      rcases hkinds with h | h <;> rcases this.1 with h2 | h2 <;> rw [h] at h2 <;> cases h2

theorem c1_witness :
    ∃ d ∈ (verify_all_lemmas (some c4oracle) (mkAnalysis c4src)).declarations,
      d.name = "foo" ∧ (d.kind = .lem ∨ d.kind = .thm) ∧
      (d.name ∈ (verify_all_lemmas (some c4oracle) (mkAnalysis c4src)).error_declarations ↔
        (d.has_proof = true ∧
          ∃ r, alistFind
            (verify_all_lemmas (some c4oracle) (mkAnalysis c4src)).lemma_compilation_results
              d.name = some r ∧ r.complete = false)) := by
  have hex : ∃ d ∈ (verify_all_lemmas (some c4oracle) (mkAnalysis c4src)).declarations,
      d.name = "foo" ∧ (d.kind = DeclKind.lem ∨ d.kind = DeclKind.thm) := by decide
  obtain ⟨d, hd, hn, hk⟩ := hex
  exact ⟨d, hd, hn, hk,
    ((c1_verify_invariant c4src (some c4oracle) _ rfl) d hd).1 hk⟩

/-! ## Claim C5: decimal suffixes and `_generate_unique_name` -/

theorem digitChar_toNat (m : Nat) (h : m < 10) : (digitChar m).toNat = 48 + m := by
  interval_cases m <;> decide

theorem decVal_append (xs : List Char) (c : Char) :
    decVal (xs ++ [c]) = decVal xs * 10 + (c.toNat - 48) := by
  unfold decVal
  rw [List.foldl_append]
  rfl

theorem decVal_natToDecAux :
    ∀ (fuel n : Nat), n < 10 ^ fuel → decVal (natToDecAux fuel n) = n := by
  intro fuel
  induction fuel with
  | zero =>
    intro n h
    have h0 : n = 0 := by simpa using h
    subst h0
    rfl
  | succ f ih =>
    intro n h
    unfold natToDecAux
    by_cases h10 : n < 10
    · rw [if_pos h10]
      show decVal [digitChar n] = n
      unfold decVal
      show 0 * 10 + ((digitChar n).toNat - 48) = n
      rw [digitChar_toNat n h10]
      omega
    · rw [if_neg h10]
      have hdiv : n / 10 < 10 ^ f := by
        have h2 : n < 10 ^ f * 10 := by
          rw [← pow_succ]
          exact h
        exact (Nat.div_lt_iff_lt_mul (by norm_num)).mpr h2
      rw [decVal_append, digitChar_toNat (n % 10) (Nat.mod_lt n (by norm_num)), ih (n / 10) hdiv]
      omega

theorem lt_ten_pow (m : Nat) : m < 10 ^ (m + 1) := by
  have h1 : m < 2 ^ (m + 1) :=
    lt_of_lt_of_le (Nat.lt_two_pow m) (Nat.pow_le_pow_right (by norm_num) (by omega))
  exact lt_of_lt_of_le h1 (Nat.pow_le_pow_left (by norm_num) (m + 1))

theorem natToDec_inj {m n : Nat} (h : natToDec m = natToDec n) : m = n := by
  unfold natToDec at h
  have h2 : natToDecAux (m + 1) m = natToDecAux (n + 1) n := congrArg String.data h
  have hm : decVal (natToDecAux (m + 1) m) = m := decVal_natToDecAux _ _ (lt_ten_pow m)
  have hn : decVal (natToDecAux (n + 1) n) = n := decVal_natToDecAux _ _ (lt_ten_pow n)
  rw [h2, hn] at hm
  exact hm.symm

theorem baseSuffix_inj (base : String) {m n : Nat}
    (h : base ++ "_" ++ natToDec m = base ++ "_" ++ natToDec n) : m = n := by
  apply natToDec_inj
  have h2 : (base ++ "_").data ++ (natToDec m).data =
      (base ++ "_").data ++ (natToDec n).data := by
    have h3 := congrArg String.data h
    simpa using h3
  have h4 := List.append_cancel_left h2
  cases hm : natToDec m with
  | mk lm =>
    cases hn : natToDec n with
    | mk ln =>
      rw [hm, hn] at h4
      have h5 : lm = ln := h4
      exact congrArg String.mk h5

theorem genUniqueAux_spec (base : String) (existing : List String) :
    ∀ (fuel counter : Nat),
      (∃ j, counter ≤ j ∧ j < counter + fuel ∧
        existing.contains (base ++ "_" ++ natToDec j) = false) →
      ∃ k, counter ≤ k ∧
        genUniqueAux base existing fuel counter = base ++ "_" ++ natToDec k ∧
        existing.contains (base ++ "_" ++ natToDec k) = false ∧
        ∀ j, counter ≤ j → j < k → existing.contains (base ++ "_" ++ natToDec j) = true := by
  intro fuel
  induction fuel with
  | zero =>
    intro counter h
    obtain ⟨j, h1, h2, _⟩ := h
    omega
  | succ f ih =>
    intro counter h
    have heq : genUniqueAux base existing (f + 1) counter =
        (if existing.contains (base ++ "_" ++ natToDec counter) = true then
          genUniqueAux base existing f (counter + 1)
        else base ++ "_" ++ natToDec counter) := rfl
    rw [heq]
    by_cases hc : existing.contains (base ++ "_" ++ natToDec counter) = true
    · rw [if_pos hc]
      have h' : ∃ j, counter + 1 ≤ j ∧ j < (counter + 1) + f ∧
          existing.contains (base ++ "_" ++ natToDec j) = false := by
        obtain ⟨j, h1, h2, h3⟩ := h
        by_cases hj : j = counter
        · subst hj
          rw [h3] at hc
          cases hc
        · exact ⟨j, by omega, by omega, h3⟩
      obtain ⟨k, hk1, hk2, hk3, hk4⟩ := ih (counter + 1) h'
      refine ⟨k, by omega, hk2, hk3, ?_⟩
      intro j hj1 hj2
      by_cases hj : j = counter
      · subst hj
        exact hc
      · exact hk4 j (by omega) hj2
    · rw [if_neg hc]
      exact ⟨counter, le_refl _, rfl, Bool.eq_false_iff.mpr hc,
        fun j h1 h2 => absurd (lt_of_le_of_lt h1 h2) (lt_irrefl counter)⟩

theorem genUnique_free (base : String) (existing : List String) :
    ∃ j, 1 ≤ j ∧ j < 1 + (existing.length + 1) ∧
      existing.contains (base ++ "_" ++ natToDec j) = false := by
  by_contra hcon
  push_neg at hcon
  have hcon' : ∀ j, 1 ≤ j → j < existing.length + 2 →
      existing.contains (base ++ "_" ++ natToDec j) = true := by
    intro j h1 h2
    have h3 := hcon j h1 (by omega)
    cases hb : existing.contains (base ++ "_" ++ natToDec j) with
    | true => rfl
    | false => exact absurd hb h3
  have hnd : ((List.range (existing.length + 1)).map
      (fun j => base ++ "_" ++ natToDec (j + 1))).Nodup := by
    refine List.Nodup.map ?_ (List.nodup_range _)
    intro a b hab
    have := baseSuffix_inj base hab
    omega
  have hsub : ∀ x ∈ (List.range (existing.length + 1)).map
      (fun j => base ++ "_" ++ natToDec (j + 1)), x ∈ existing := by
    intro x hx
    obtain ⟨j, hj, rfl⟩ := List.mem_map.mp hx
    have hjr := List.mem_range.mp hj
    have h4 := hcon' (j + 1) (by omega) (by omega)
    simpa using h4
  have h1 := List.toFinset_card_of_nodup hnd
  have h2 : ((List.range (existing.length + 1)).map
      (fun j => base ++ "_" ++ natToDec (j + 1))).toFinset ⊆ existing.toFinset := by
    intro x hx
    rw [List.mem_toFinset] at hx ⊢
    exact hsub x hx
  have h3 := Finset.card_le_card h2
  have h4 := existing.toFinset_card_le
  have h5 : ((List.range (existing.length + 1)).map
      (fun j => base ++ "_" ++ natToDec (j + 1))).length = existing.length + 1 := by
    simp
  omega

/-- `_generate_unique_name` on a colliding base returns `base_k` for the
minimal positive `k` whose decimal form is unused. -/
theorem generate_unique_name_spec (base : String) (existing : List String)
    (hmem : existing.contains base = true) :
    ∃ k, 1 ≤ k ∧ generate_unique_name base existing = base ++ "_" ++ natToDec k ∧
      existing.contains (base ++ "_" ++ natToDec k) = false ∧
      ∀ j, 1 ≤ j → j < k → existing.contains (base ++ "_" ++ natToDec j) = true := by
  unfold generate_unique_name
  rw [hmem]
  rw [if_neg (by simp)]
  exact genUniqueAux_spec base existing (existing.length + 1) 1 (genUnique_free base existing)

/-! ## Claim C5: the `\b`-substitution removes every whole-word occurrence -/

theorem head?_drop' {α : Type} : ∀ (l : List α) (n : Nat), (l.drop n).head? = l.get? n := by
  intro l
  induction l with
  | nil =>
    intro n
    cases n <;> rfl
  | cons a t ih =>
    intro n
    cases n with
    | zero => rfl
    | succ m => exact ih m

theorem get?_take_lt {α : Type} :
    ∀ (l : List α) (n m : Nat), m < n → (l.take n).get? m = l.get? m := by
  intro l
  induction l with
  | nil =>
    intro n m _
    cases n <;> rfl
  | cons a t ih =>
    intro n m h
    cases n with
    | zero => omega
    | succ k =>
      cases m with
      | zero => rfl
      | succ j => exact ih k j (by omega)

theorem mem_of_getLast?' {α : Type} : ∀ (l : List α) (a : α), l.getLast? = some a → a ∈ l := by
  intro l
  induction l with
  | nil =>
    intro a h
    cases h
  | cons x t ih =>
    intro a h
    cases t with
    | nil =>
      have h2 : x = a := Option.some.inj h
      rw [h2]
      exact List.mem_cons_self _ _
    | cons y t' =>
      have h2 : (y :: t').getLast? = some a := h
      exact List.mem_cons_of_mem _ (ih a h2)

theorem isPrefixOf_length_le' : ∀ (l s : List Char), l.isPrefixOf s = true →
    l.length ≤ s.length := by
  intro l
  induction l with
  | nil =>
    intro s _
    simp
  | cons a l' ih =>
    intro s h
    cases s with
    | nil => exact Bool.noConfusion h
    | cons b s' =>
      have h2 : (a == b && l'.isPrefixOf s') = true := h
      rw [Bool.and_eq_true] at h2
      have h3 := ih s' h2.2
      simp only [List.length_cons]
      omega

theorem isPrefixOf_take' : ∀ (l s : List Char), l.isPrefixOf s = true →
    s.take l.length = l := by
  intro l
  induction l with
  | nil =>
    intro s _
    rfl
  | cons a l' ih =>
    intro s h
    cases s with
    | nil => exact Bool.noConfusion h
    | cons b s' =>
      have h2 : (a == b && l'.isPrefixOf s') = true := h
      rw [Bool.and_eq_true] at h2
      have hab : a = b := beq_iff_eq.mp h2.1
      show (b :: s').take (l'.length + 1) = a :: l'
      rw [List.take_succ_cons, ih s' h2.2, ← hab]

theorem isPrefixOf_nil_false (old : List Char) (h0 : old ≠ []) :
    old.isPrefixOf ([] : List Char) = false := by
  cases old with
  | nil => exact absurd rfl h0
  | cons a o' => rfl

theorem wordAtHere_true_prevW (old : List Char) (h0 : old ≠ [])
    (hw : ∀ c ∈ old, isWordChar c = true) (s : List Char) :
    wordAtHere old true s = false := by
  cases old with
  | nil => exact absurd rfl h0
  | cons a o' =>
    have ha : isWordChar a = true := hw a (List.mem_cons_self _ _)
    unfold wordAtHere
    simp [isWordB, ha]

theorem wordAtHere_nil (old : List Char) (h0 : old ≠ []) (prevW : Bool) :
    wordAtHere old prevW [] = false := by
  unfold wordAtHere
  rw [isPrefixOf_nil_false old h0]
  rfl

theorem wordSubAux_succ_nil (old new : List Char) (f : Nat) (prevW : Bool) :
    wordSubAux old new (f + 1) prevW [] =
      (if wordAtHere old prevW [] = true then
        new ++ wordSubAux old new f (isWordB old.getLast?) (([] : List Char).drop old.length)
      else []) := rfl

theorem wordSubAux_succ_cons (old new : List Char) (f : Nat) (prevW : Bool) (c : Char)
    (t : List Char) :
    wordSubAux old new (f + 1) prevW (c :: t) =
      (if wordAtHere old prevW (c :: t) = true then
        new ++ wordSubAux old new f (isWordB old.getLast?) ((c :: t).drop old.length)
      else c :: wordSubAux old new f (isWordChar c) t) := rfl

theorem wordSubAux_take (old new : List Char) (h0 : old ≠ [])
    (hw : ∀ c ∈ old, isWordChar c = true) :
    ∀ (m : Nat) (rest : List Char) (fuel : Nat),
      rest.length < fuel →
      (∀ c ∈ rest.take m, isWordChar c = true) →
      (wordSubAux old new fuel true rest).take (m + 1) = rest.take (m + 1) := by
  intro m
  induction m with
  | zero =>
    intro rest fuel hf _
    cases fuel with
    | zero => exact absurd hf (Nat.not_lt_zero _)
    | succ f =>
      cases rest with
      | nil =>
        rw [wordSubAux_succ_nil,
          if_neg (by rw [wordAtHere_true_prevW old h0 hw]; exact Bool.false_ne_true)]
      | cons c t =>
        rw [wordSubAux_succ_cons,
          if_neg (by rw [wordAtHere_true_prevW old h0 hw]; exact Bool.false_ne_true)]
        rfl
  | succ m ih =>
    intro rest fuel hf hword
    cases fuel with
    | zero => exact absurd hf (Nat.not_lt_zero _)
    | succ f =>
      cases rest with
      | nil =>
        rw [wordSubAux_succ_nil,
          if_neg (by rw [wordAtHere_true_prevW old h0 hw]; exact Bool.false_ne_true)]
      | cons c t =>
        rw [wordSubAux_succ_cons,
          if_neg (by rw [wordAtHere_true_prevW old h0 hw]; exact Bool.false_ne_true)]
        have hc : isWordChar c = true := hword c (by
          rw [List.take_succ_cons]
          exact List.mem_cons_self _ _)
        rw [hc, List.take_succ_cons, List.take_succ_cons]
        have hword' : ∀ x ∈ t.take m, isWordChar x = true := by
          intro x hx
          refine hword x ?_
          rw [List.take_succ_cons]
          exact List.mem_cons_of_mem _ hx
        rw [ih t f (by simp only [List.length_cons] at hf; omega) hword']

theorem wordSubAux_prefix_back (old new : List Char) (h0 : old ≠ [])
    (hw : ∀ c ∈ old, isWordChar c = true) :
    ∀ (o : List Char), (∀ c ∈ o, isWordChar c = true) →
      ∀ (t : List Char) (fuel : Nat), t.length < fuel →
        o.isPrefixOf (wordSubAux old new fuel true t) = true → o.isPrefixOf t = true := by
  intro o
  induction o with
  | nil =>
    intro _ t fuel _ _
    cases t <;> rfl
  | cons a o' ih =>
    intro ho t fuel hf hp
    cases fuel with
    | zero => exact absurd hf (Nat.not_lt_zero _)
    | succ f =>
      cases t with
      | nil =>
        rw [wordSubAux_succ_nil,
          if_neg (by rw [wordAtHere_true_prevW old h0 hw]; exact Bool.false_ne_true)] at hp
        rw [isPrefixOf_nil_false (a :: o') (by simp)] at hp
        exact Bool.noConfusion hp
      | cons d t' =>
        rw [wordSubAux_succ_cons,
          if_neg (by rw [wordAtHere_true_prevW old h0 hw]; exact Bool.false_ne_true)] at hp
        have hp2 : (a == d && o'.isPrefixOf (wordSubAux old new f (isWordChar d) t')) =
            true := hp
        rw [Bool.and_eq_true] at hp2
        have had : a = d := beq_iff_eq.mp hp2.1
        have hdw : isWordChar d = true := by
          rw [← had]
          exact ho a (List.mem_cons_self _ _)
        have hp3 := hp2.2
        rw [hdw] at hp3
        have hrec := ih (fun c hc => ho c (List.mem_cons_of_mem _ hc)) t' f
          (by simp only [List.length_cons] at hf; omega) hp3
        show (a == d && o'.isPrefixOf t') = true
        rw [Bool.and_eq_true]
        exact ⟨beq_iff_eq.mpr had, hrec⟩

theorem wordSearchAux_allword (old : List Char) (h0 : old ≠ [])
    (hw : ∀ c ∈ old, isWordChar c = true) :
    ∀ (u : List Char), (∀ c ∈ u, isWordChar c = true) →
      ∀ X, wordSearchAux old true (u ++ X) = wordSearchAux old true X := by
  intro u
  induction u with
  | nil =>
    intro _ X
    rfl
  | cons c u' ih =>
    intro hu X
    show (wordAtHere old true (c :: (u' ++ X)) ||
      wordSearchAux old (isWordChar c) (u' ++ X)) = wordSearchAux old true X
    rw [wordAtHere_true_prevW old h0 hw, hu c (List.mem_cons_self _ _), Bool.false_or]
    exact ih (fun x hx => hu x (List.mem_cons_of_mem _ hx)) X

theorem wordSearch_newblock (old new : List Char) (h0 : old ≠ [])
    (hw : ∀ c ∈ old, isWordChar c = true)
    (ds : List Char) (hds : ∀ c ∈ ds, isWordChar c = true)
    (hnew : new = old ++ '_' :: ds) :
    ∀ X, wordSearchAux old false (new ++ X) = wordSearchAux old true X := by
  intro X
  subst hnew
  cases old with
  | nil => exact absurd rfl h0
  | cons a o' =>
    have ha : isWordChar a = true := hw a (List.mem_cons_self _ _)
    have hform : ((a :: o') ++ '_' :: ds) ++ X = a :: (o' ++ '_' :: (ds ++ X)) := by
      simp
    rw [hform]
    show (wordAtHere (a :: o') false (a :: (o' ++ '_' :: (ds ++ X))) ||
      wordSearchAux (a :: o') (isWordChar a) (o' ++ '_' :: (ds ++ X))) =
        wordSearchAux (a :: o') true X
    have hfirst : wordAtHere (a :: o') false (a :: (o' ++ '_' :: (ds ++ X))) = false := by
      unfold wordAtHere
      have hdrop : ((a :: (o' ++ '_' :: (ds ++ X))).drop (a :: o').length) =
          '_' :: (ds ++ X) := by
        show ((a :: (o' ++ '_' :: (ds ++ X))).drop (o'.length + 1)) = _
        rw [List.drop_succ_cons]
        exact List.drop_left o' _
      rw [hdrop]
      have hbd : isBoundary (a :: o').getLast? ('_' :: (ds ++ X)).head? = false := by
        have h1 : ('_' :: (ds ++ X)).head? = some '_' := rfl
        rw [h1]
        cases hgl : (a :: o').getLast? with
        | none => simp at hgl
        | some l =>
          have hlmem : l ∈ a :: o' := mem_of_getLast?' _ l hgl
          have hlw : isWordChar l = true := hw l hlmem
          show (isWordB (some l) != isWordB (some '_')) = false
          show (isWordChar l != isWordChar '_') = false
          rw [hlw]
          decide
      rw [hbd]
      simp
    rw [hfirst, Bool.false_or, ha]
    have hform2 : o' ++ '_' :: (ds ++ X) = (o' ++ '_' :: ds) ++ X := by
      simp
    rw [hform2]
    refine wordSearchAux_allword (a :: o') (by simp) hw (o' ++ '_' :: ds) ?_ X
    intro c hc
    rcases List.mem_append.mp hc with h | h
    · exact hw c (List.mem_cons_of_mem _ h)
    · rcases List.mem_cons.mp h with h2 | h2
      · rw [h2]
        decide
      · exact hds c h2

/-- After `re.sub(r'\b' + old + r'\b', old_k, text)` with `old` a pure
word-character name and `old_k = old ++ "_" ++ digits`, no whole-word
occurrence of `old` remains anywhere in the output. -/
theorem wordSub_kills (old new : List Char) (h0 : old ≠ [])
    (hw : ∀ c ∈ old, isWordChar c = true)
    (ds : List Char) (hds : ∀ c ∈ ds, isWordChar c = true)
    (hnew : new = old ++ '_' :: ds) :
    ∀ (fuel : Nat) (rest : List Char) (prevW : Bool), rest.length < fuel →
      wordSearchAux old prevW (wordSubAux old new fuel prevW rest) = false := by
  intro fuel
  induction fuel with
  | zero =>
    intro rest prevW h
    exact absurd h (Nat.not_lt_zero _)
  | succ f ih =>
    intro rest prevW hf
    cases prevW with
    | true =>
      cases rest with
      | nil =>
        rw [wordSubAux_succ_nil,
          if_neg (by rw [wordAtHere_true_prevW old h0 hw]; exact Bool.false_ne_true)]
        show wordAtHere old true [] = false
        exact wordAtHere_true_prevW old h0 hw []
      | cons c t =>
        rw [wordSubAux_succ_cons,
          if_neg (by rw [wordAtHere_true_prevW old h0 hw]; exact Bool.false_ne_true)]
        show (wordAtHere old true (c :: wordSubAux old new f (isWordChar c) t) ||
          wordSearchAux old (isWordChar c) (wordSubAux old new f (isWordChar c) t)) = false
        rw [wordAtHere_true_prevW old h0 hw, Bool.false_or]
        exact ih t (isWordChar c) (by simp only [List.length_cons] at hf; omega)
    | false =>
      by_cases hm : wordAtHere old false rest = true
      · cases rest with
        | nil =>
          rw [wordAtHere_nil old h0 false] at hm
          exact Bool.noConfusion hm
        | cons c t =>
          rw [wordSubAux_succ_cons, if_pos hm]
          have hlast : isWordB old.getLast? = true := by
            cases hgl : old.getLast? with
            | none =>
              simp only [List.getLast?_eq_none_iff] at hgl
              exact absurd hgl h0
            | some l =>
              have hlmem : l ∈ old := mem_of_getLast?' _ l hgl
              show isWordChar l = true
              exact hw l hlmem
          rw [hlast]
          have hm' := hm
          unfold wordAtHere at hm'
          rw [Bool.and_eq_true, Bool.and_eq_true] at hm'
          have hpre : old.isPrefixOf (c :: t) = true := hm'.1.1
          have hlen : old.length ≤ (c :: t).length := isPrefixOf_length_le' old (c :: t) hpre
          have h0len : 1 ≤ old.length := by
            cases old with
            | nil => exact absurd rfl h0
            | cons _ _ => simp
          rw [wordSearch_newblock old new h0 hw ds hds hnew]
          exact ih ((c :: t).drop old.length) true
            (by simp only [List.length_drop, List.length_cons] at hf hlen ⊢; omega)
      · cases rest with
        | nil =>
          rw [wordSubAux_succ_nil, if_neg hm]
          show wordAtHere old false [] = false
          exact wordAtHere_nil old h0 false
        | cons c t =>
          rw [wordSubAux_succ_cons, if_neg hm]
          show (wordAtHere old false (c :: wordSubAux old new f (isWordChar c) t) ||
            wordSearchAux old (isWordChar c) (wordSubAux old new f (isWordChar c) t)) = false
          have hsecond : wordSearchAux old (isWordChar c)
              (wordSubAux old new f (isWordChar c) t) = false :=
            ih t (isWordChar c) (by simp only [List.length_cons] at hf; omega)
          rw [hsecond, Bool.or_false]
          by_cases hcw : isWordChar c = true
          · by_contra hcon
            rw [Bool.not_eq_false] at hcon
            rw [hcw] at hcon
            unfold wordAtHere at hcon
            rw [Bool.and_eq_true, Bool.and_eq_true] at hcon
            have hpre2 := hcon.1.1
            have hbd2 := hcon.2
            cases old with
            | nil => exact absurd rfl h0
            | cons a o' =>
              have hp2 : (a == c &&
                  o'.isPrefixOf (wordSubAux (a :: o') new f true t)) = true := hpre2
              rw [Bool.and_eq_true] at hp2
              have hac : a = c := beq_iff_eq.mp hp2.1
              have hp3 := hp2.2
              have hopre : o'.isPrefixOf t = true :=
                wordSubAux_prefix_back (a :: o') new h0 hw o'
                  (fun x hx => hw x (List.mem_cons_of_mem _ hx)) t f
                  (by simp only [List.length_cons] at hf; omega) hp3
              have htake : t.take o'.length = o' := isPrefixOf_take' o' t hopre
              have hwordt : ∀ x ∈ t.take o'.length, isWordChar x = true := by
                rw [htake]
                intro x hx
                exact hw x (List.mem_cons_of_mem _ hx)
              have htakeEq := wordSubAux_take (a :: o') new h0 hw o'.length t f
                (by simp only [List.length_cons] at hf; omega) hwordt
              have hget : (wordSubAux (a :: o') new f true t).get? o'.length =
                  t.get? o'.length := by
                have h1 : ((wordSubAux (a :: o') new f true t).take (o'.length + 1)).get?
                    o'.length = ((t.take (o'.length + 1)).get? o'.length) := by
                  rw [htakeEq]
                rw [get?_take_lt _ _ _ (by omega), get?_take_lt _ _ _ (by omega)] at h1
                exact h1
              have hmatch : wordAtHere (a :: o') false (c :: t) = true := by
                unfold wordAtHere
                rw [Bool.and_eq_true, Bool.and_eq_true]
                refine ⟨⟨?_, ?_⟩, ?_⟩
                · show (a == c && o'.isPrefixOf t) = true
                  rw [Bool.and_eq_true]
                  exact ⟨beq_iff_eq.mpr hac, hopre⟩
                · show (false != isWordChar a) = true
                  rw [hac, hcw]
                  rfl
                · have hd1 : ((c :: wordSubAux (a :: o') new f true t).drop
                      (a :: o').length).head? =
                      (wordSubAux (a :: o') new f true t).get? o'.length := by
                    show ((wordSubAux (a :: o') new f true t).drop o'.length).head? = _
                    exact head?_drop' _ _
                  have hd2 : ((c :: t).drop (a :: o').length).head? = t.get? o'.length := by
                    show ((t.drop o'.length)).head? = _
                    exact head?_drop' _ _
                  rw [hd2, ← hget, ← hd1]
                  exact hbd2
              exact absurd hmatch hm
          · cases old with
            | nil => exact absurd rfl h0
            | cons a o' =>
              have hfc : (a == c) = false := by
                cases hb : (a == c) with
                | false => rfl
                | true =>
                  have h2 : a = c := beq_iff_eq.mp hb
                  rw [← h2] at hcw
                  exact absurd (hw a (List.mem_cons_self _ _)) hcw
              unfold wordAtHere
              have hpf : (a :: o').isPrefixOf
                  (c :: wordSubAux (a :: o') new f (isWordChar c) t) = false := by
                show (a == c && _) = false
                rw [hfc]
                rfl
              rw [hpf]
              rfl

theorem digitChar_word (m : Nat) (h : m < 10) : isWordChar (digitChar m) = true := by
  interval_cases m <;> decide

theorem natToDecAux_word :
    ∀ (fuel n : Nat), ∀ c ∈ natToDecAux fuel n, isWordChar c = true := by
  intro fuel
  induction fuel with
  | zero =>
    intro n c hc
    cases hc
  | succ f ih =>
    intro n c hc
    unfold natToDecAux at hc
    by_cases h10 : n < 10
    · rw [if_pos h10] at hc
      rw [List.mem_singleton.mp hc]
      exact digitChar_word n h10
    · rw [if_neg h10] at hc
      rcases List.mem_append.mp hc with h | h
      · exact ih (n / 10) c h
      · rw [List.mem_singleton.mp h]
        exact digitChar_word (n % 10) (Nat.mod_lt n (by norm_num))

theorem data_append' (a b : String) : (a ++ b).data = a.data ++ b.data := rfl

/-- The combined effect of `_rename_declaration_in_text` for a pure
word-character base renamed to `base_k`: no whole-word occurrence of the
base survives in the output, whatever the input text. -/
theorem rename_kills (base nn : String) (k : Nat)
    (hb0 : base.data ≠ []) (hbw : ∀ c ∈ base.data, isWordChar c = true)
    (hnn : nn = base ++ "_" ++ natToDec k) (t : String) :
    wordSearch base (rename_declaration_in_text t base nn) = false := by
  have hshape : nn.data = base.data ++ '_' :: (natToDec k).data := by
    rw [hnn]
    show ((base ++ "_") ++ natToDec k).data = _
    rw [data_append', data_append']
    simp
  have hds : ∀ c ∈ (natToDec k).data, isWordChar c = true := by
    intro c hc
    exact natToDecAux_word _ _ c hc
  unfold rename_declaration_in_text wordSub wordSearch
  show wordSearchAux base.data false
    (wordSubAux base.data nn.data ((subDeclPattern base nn t).data.length + 1) false
      (subDeclPattern base nn t).data) = false
  exact wordSub_kills base.data nn.data hb0 hbw (natToDec k).data hds hshape _ _ false
    (Nat.lt_succ_self _)

theorem splitChAux_no_mem (c : Char) :
    ∀ (s acc : List Char), c ∉ acc → ∀ p ∈ splitChAux c s acc, c ∉ p := by
  intro s
  induction s with
  | nil =>
    intro acc hacc p hp
    have hp2 : p ∈ [acc.reverse] := hp
    rw [List.mem_singleton.mp hp2]
    simpa using hacc
  | cons d rest ih =>
    intro acc hacc p hp
    unfold splitChAux at hp
    by_cases hd : (d == c) = true
    · rw [if_pos hd] at hp
      rcases List.mem_cons.mp hp with h | h
      · rw [h]
        simpa using hacc
      · exact ih [] (by simp) p h
    · rw [if_neg hd] at hp
      refine ih (d :: acc) ?_ p hp
      intro hc
      rcases List.mem_cons.mp hc with h | h
      · exact hd (beq_iff_eq.mpr h.symm)
      · exact hacc h

theorem splitNl_no_nl (s : String) : ∀ l ∈ splitNl s, '\n' ∉ l.data := by
  intro l hl
  unfold splitNl splitCh at hl
  obtain ⟨p, hp, hlp⟩ := List.mem_map.mp hl
  rw [← hlp]
  exact splitChAux_no_mem '\n' s.data [] (by simp) p hp

theorem splitNl_ne_nil (s : String) : splitNl s ≠ [] := by
  unfold splitNl splitCh
  intro h
  rw [List.map_eq_nil_iff] at h
  exact splitChAux_ne_nil '\n' s.data [] h

/-- **C5.**  Corrected form, for a pure word-character base name: when the
single new helper of a fix collides (its base name is an existing
declaration name), `_generate_unique_name` yields `base_k` for the minimal
positive unused `k`; the renaming pass removes every whole-word occurrence
of the base from any text it is applied to; the splice records the renaming
both in the outcome and in `fix_history[L].renamings`; and every line
before the spliced region — in particular a pre-existing declaration of
the base located there — is preserved verbatim.  The word-character
proviso is necessary: a base captured with a trailing dot matches no
`\b`-anchored pattern, so nothing is rewritten (see the counterexample). -/
theorem c5_amended (pa : ProofAnalysis) (L fixed : String)
    (oi : Decl) (hoi : dictFind pa.declarations L = some oi)
    (cached : String × List String) (hc : oi.original_subproblem = some cached)
    (hne : (cached.1 == "") = false)
    (tfd : FixedDecl)
    (htf : (extractFixedDecls (splitNl fixed)).find? (fun d => d.name == L) = some tfd)
    (base nn : String) (k : Nat)
    (hmap : (fixStep4 L (extractFixedDecls (splitNl fixed))
      (pa.declarations.map (fun x => x.name))).2.1 = [(base, nn)])
    (hnn : nn = base ++ "_" ++ natToDec k)
    (hb0 : base.data ≠ []) (hbw : ∀ c ∈ base.data, isWordChar c = true)
    (existing : List String) (hmem : existing.contains base = true)
    (hlines : pa.lines = splitNl pa.code)
    (hsl : oi.start_line - 1 ≤ pa.lines.length) :
    (∃ k', 1 ≤ k' ∧ generate_unique_name base existing = base ++ "_" ++ natToDec k' ∧
      existing.contains (base ++ "_" ++ natToDec k') = false ∧
      ∀ j, 1 ≤ j → j < k' → existing.contains (base ++ "_" ++ natToDec j) = true) ∧
    (∀ t, wordSearch base (rename_declaration_in_text t base nn) = false) ∧
    (∃ rt, (fix_lemma pa L fixed).2 = .fixed rt [(base, nn)]) ∧
    (∃ fr, alistFind (fix_lemma pa L fixed).1.fix_history L = some fr ∧
      fr.renamings = [(base, nn)]) ∧
    (fix_lemma pa L fixed).1.lines.take (oi.start_line - 1) =
      pa.lines.take (oi.start_line - 1) := by
  have hne' : ¬((cached.1 == "") = true) := by
    rw [hne]
    exact Bool.false_ne_true
  have hni : ¬(([(base, nn)] : List (String × String)).isEmpty = true) := by simp
  refine ⟨generate_unique_name_spec base existing hmem,
    fun t => rename_kills base nn k hb0 hbw hnn t, ?_, ?_, ?_⟩
  · simp only [fix_lemma, hoi, hc, if_neg hne', htf, hmap, if_neg hni]
    exact ⟨_, rfl⟩
  · simp only [fix_lemma, hoi, hc, if_neg hne', htf, hmap, if_neg hni, cache_subproblems]
    exact ⟨_, alistFind_insert_self _ _ _, rfl⟩
  · simp only [fix_lemma, hoi, hc, if_neg hne', htf, hmap, if_neg hni, cache_subproblems]
    rw [splitNl_joinNl]
    · rw [List.append_assoc, List.take_left']
      rw [List.length_take]
      omega
    · intro hcon
      rw [List.append_eq_nil] at hcon
      have hcon1 := hcon.1
      rw [List.append_eq_nil] at hcon1
      exact splitNl_ne_nil _ hcon1.2
    · intro l hl
      rcases List.mem_append.mp hl with h | h
      · rcases List.mem_append.mp h with h2 | h2
        · have h3 : l ∈ pa.lines := List.mem_of_mem_take h2
          rw [hlines] at h3
          exact splitNl_no_nl pa.code l h3
        · exact splitNl_no_nl _ l h2
      · have h3 : l ∈ pa.lines := List.mem_of_mem_drop h
        rw [hlines] at h3
        exact splitNl_no_nl pa.code l h3

theorem c5_witness :
    ∃ oi, dictFind c5wpa.declarations "main" = some oi ∧
      ((∃ k', 1 ≤ k' ∧ generate_unique_name "hfoo"
          (c5wpa.declarations.map (fun x => x.name)) = "hfoo" ++ "_" ++ natToDec k' ∧
        (c5wpa.declarations.map (fun x => x.name)).contains
          ("hfoo" ++ "_" ++ natToDec k') = false ∧
        ∀ j, 1 ≤ j → j < k' → (c5wpa.declarations.map (fun x => x.name)).contains
          ("hfoo" ++ "_" ++ natToDec j) = true) ∧
      (∀ t, wordSearch "hfoo" (rename_declaration_in_text t "hfoo" "hfoo_1") = false) ∧
      (∃ rt, (fix_lemma c5wpa "main" c5wfixed).2 = .fixed rt [("hfoo", "hfoo_1")]) ∧
      (∃ fr, alistFind (fix_lemma c5wpa "main" c5wfixed).1.fix_history "main" = some fr ∧
        fr.renamings = [("hfoo", "hfoo_1")]) ∧
      (fix_lemma c5wpa "main" c5wfixed).1.lines.take (oi.start_line - 1) =
        c5wpa.lines.take (oi.start_line - 1)) := by
  have h1 : (dictFind c5wpa.declarations "main").isSome = true := by decide
  obtain ⟨oi, hoi⟩ := Option.isSome_iff_exists.mp h1
  have h2 : ((dictFind c5wpa.declarations "main").bind
      (fun oi => oi.original_subproblem)).isSome = true := by decide
  rw [hoi] at h2
  obtain ⟨cached, hc0⟩ := Option.isSome_iff_exists.mp h2
  have hc : oi.original_subproblem = some cached := hc0
  have h5 : ((dictFind c5wpa.declarations "main").bind
      (fun oi => oi.original_subproblem)).map (fun c => c.1 == "") = some false := by decide
  rw [hoi] at h5
  have h6 : (oi.original_subproblem).map (fun c => c.1 == "") = some false := h5
  rw [hc] at h6
  have hne : (cached.1 == "") = false := Option.some.inj h6
  have h7 : ((extractFixedDecls (splitNl c5wfixed)).find?
      (fun d => d.name == "main")).isSome = true := by decide
  obtain ⟨tfd, htf⟩ := Option.isSome_iff_exists.mp h7
  have hmap : (fixStep4 "main" (extractFixedDecls (splitNl c5wfixed))
      (c5wpa.declarations.map (fun x => x.name))).2.1 = [("hfoo", "hfoo_1")] := by decide
  have hnn : "hfoo_1" = "hfoo" ++ "_" ++ natToDec 1 := by decide
  have hb0 : "hfoo".data ≠ [] := by decide
  have hbw : ∀ c ∈ "hfoo".data, isWordChar c = true := by decide
  have hmem : (c5wpa.declarations.map (fun x => x.name)).contains "hfoo" = true := by decide
  have hlines : c5wpa.lines = splitNl c5wpa.code := by decide
  have h9 : (dictFind c5wpa.declarations "main").map (fun d => d.start_line) = some 3 := by
    decide
  rw [hoi] at h9
  have h10 : oi.start_line = 3 := Option.some.inj h9
  have hsl : oi.start_line - 1 ≤ c5wpa.lines.length := by
    rw [h10]
    decide
  exact ⟨oi, hoi, c5_amended c5wpa "main" c5wfixed oi hoi cached hc hne tfd htf
    "hfoo" "hfoo_1" 1 hmap hnn hb0 hbw (c5wpa.declarations.map (fun x => x.name)) hmem
    hlines hsl⟩

/-- **C5** (counterexample).  On `c5pa` the helper captured as `foo.`
(trailing dot) collides with the existing `foo.`; the renaming `foo. →
foo._1` is recorded, but the `\b`-anchored patterns cannot match a name
ending in a dot, so nothing in the inserted text is rewritten: the
replacement still declares `foo.`, contains no `foo._1` at all, and the
re-extracted analysis binds the name `foo.` to the inserted helper
(start line 3) instead of the pre-existing declaration (start line 1). -/
theorem c5_counterexample :
    dictFind c5pa.declarations "tgt" ≠ none ∧
    (fix_lemma c5pa "tgt" c5fixed).2 =
      .fixed "lemma foo. : True := trivial\n\nlemma tgt : True := trivial"
        [("foo.", "foo._1")] ∧
    containsSub "foo._1"
      "lemma foo. : True := trivial\n\nlemma tgt : True := trivial" = false ∧
    rename_declaration_in_text "theorem foo. : True := trivial" "foo." "foo._1" =
      "theorem foo. : True := trivial" ∧
    (dictFind c5pa.declarations "foo.").map (fun d => d.start_line) = some 1 ∧
    (dictFind (fix_lemma c5pa "tgt" c5fixed).1.declarations "foo.").map
      (fun d => d.start_line) = some 3 := by
  refine ⟨?_, ?_, ?_, ?_, ?_, ?_⟩ <;> decide

/-! ## Claim C4: supporting lemmas for the fix bookkeeping -/

theorem updateDecl_names (ds : List Decl) (n : String) (f : Decl → Decl)
    (hf : ∀ d, (f d).name = d.name) :
    (updateDecl ds n f).map (fun d => d.name) = ds.map (fun d => d.name) := by
  unfold updateDecl
  rw [List.map_map]
  apply List.map_congr_left
  intro d _
  show (if (d.name == n) = true then f d else d).name = d.name
  by_cases h : (d.name == n) = true
  · rw [if_pos h, hf]
  · rw [if_neg h]

theorem map_flags_pres (f : Decl → Decl) (hf : ∀ d, flagsD (f d) = flagsD d)
    (ds : List Decl) : (ds.map f).map flagsD = ds.map flagsD := by
  rw [List.map_map]
  apply List.map_congr_left
  intro d _
  exact hf d

theorem updateDecl_flags (ds : List Decl) (n : String) (f : Decl → Decl)
    (hf : ∀ d, flagsD (f d) = flagsD d) :
    (updateDecl ds n f).map flagsD = ds.map flagsD := by
  unfold updateDecl
  rw [List.map_map]
  apply List.map_congr_left
  intro d _
  show flagsD (if (d.name == n) = true then f d else d) = flagsD d
  by_cases h : (d.name == n) = true
  · rw [if_pos h, hf]
  · rw [if_neg h]

theorem ite_update_flags (c : Prop) [Decidable c] (ds : List Decl) (n : String)
    (f : Decl → Decl) (hf : ∀ d, flagsD (f d) = flagsD d) :
    ((if c then updateDecl ds n f else ds).map flagsD) = ds.map flagsD := by
  split
  · exact updateDecl_flags ds n f hf
  · rfl

theorem foldl_update_flags {β : Type} (g : List Decl → β → List Decl)
    (hg : ∀ ds b, (g ds b).map flagsD = ds.map flagsD) :
    ∀ (bs : List β) (ds : List Decl), ((bs.foldl g ds).map flagsD) = ds.map flagsD := by
  intro bs
  induction bs with
  | nil =>
    intro ds
    rfl
  | cons b bs' ih =>
    intro ds
    rw [List.foldl_cons, ih, hg]

theorem not_mem_setRemove_self (xs : List String) (n : String) : n ∉ setRemove xs n := by
  intro h
  have h2 := List.of_mem_filter h
  simp at h2

theorem marked_updateDecl_self (L : String) (ds : List Decl) :
    ∀ d ∈ updateDecl ds L (fun d => { d with was_fixed := true, is_verified := true }),
      d.name = L → d.was_fixed = true ∧ d.is_verified = true := by
  intro d hd hn
  obtain ⟨e, he, hde⟩ := List.mem_map.mp hd
  by_cases hb : (e.name == L) = true
  · rw [if_pos hb] at hde
    rw [← hde]
    exact ⟨rfl, rfl⟩
  · rw [if_neg hb] at hde
    rw [← hde] at hn
    exact absurd (beq_iff_eq.mpr hn) hb

/-- Invariants of the marking fold of `fix_lemma` (step 10): once the result
for `L` is recorded as the lightweight success, the declaration named `L` is
flagged fixed and verified, and `L` is out of the error set, further marking
steps preserve all three. -/
theorem st10_fold_inv (L : String) :
    ∀ (ns : List String) (st : List Decl × List (String × CompilationResult) × List String),
      (∀ d ∈ st.1, d.name = L → d.was_fixed = true ∧ d.is_verified = true) →
      alistFind st.2.1 L = some lightweightSuccessResult →
      L ∉ st.2.2 →
      ((∀ d ∈ (ns.foldl (fun (st : List Decl × List (String × CompilationResult) × List String)
            n =>
          if st.1.any (fun d => d.name == n) then
            (updateDecl st.1 n (fun d => { d with was_fixed := true, is_verified := true }),
             alistInsert st.2.1 n lightweightSuccessResult,
             setRemove st.2.2 n)
          else st) st).1, d.name = L → d.was_fixed = true ∧ d.is_verified = true) ∧
       alistFind (ns.foldl (fun (st : List Decl × List (String × CompilationResult) ×
            List String) n =>
          if st.1.any (fun d => d.name == n) then
            (updateDecl st.1 n (fun d => { d with was_fixed := true, is_verified := true }),
             alistInsert st.2.1 n lightweightSuccessResult,
             setRemove st.2.2 n)
          else st) st).2.1 L = some lightweightSuccessResult ∧
       L ∉ (ns.foldl (fun (st : List Decl × List (String × CompilationResult) ×
            List String) n =>
          if st.1.any (fun d => d.name == n) then
            (updateDecl st.1 n (fun d => { d with was_fixed := true, is_verified := true }),
             alistInsert st.2.1 n lightweightSuccessResult,
             setRemove st.2.2 n)
          else st) st).2.2) := by
  intro ns
  induction ns with
  | nil =>
    intro st h1 h2 h3
    exact ⟨h1, h2, h3⟩
  | cons n ns' ih =>
    intro st h1 h2 h3
    rw [List.foldl_cons]
    by_cases hg : st.1.any (fun d => d.name == n) = true
    · rw [if_pos hg]
      refine ih _ ?_ ?_ ?_
      · intro d hd hn
        obtain ⟨e, he, hde⟩ := List.mem_map.mp hd
        by_cases hb : (e.name == n) = true
        · rw [if_pos hb] at hde
          rw [← hde]
          exact ⟨rfl, rfl⟩
        · rw [if_neg hb] at hde
          rw [← hde] at hn ⊢
          exact h1 e he hn
      · by_cases hnL : n = L
        · subst hnL
          exact alistFind_insert_self _ _ _
        · exact (alistFind_insert_ne st.2.1 n L lightweightSuccessResult
            (fun h => hnL h.symm)).trans h2
      · intro hcm
        exact h3 (List.mem_of_mem_filter hcm)
    · rw [if_neg hg]
      exact ih st h1 h2 h3

/-- The marking fold never changes which declaration names are present. -/
theorem st10_fold_names :
    ∀ (ns : List String) (st : List Decl × List (String × CompilationResult) × List String),
      (((ns.foldl (fun (st : List Decl × List (String × CompilationResult) × List String)
            n =>
          if st.1.any (fun d => d.name == n) then
            (updateDecl st.1 n (fun d => { d with was_fixed := true, is_verified := true }),
             alistInsert st.2.1 n lightweightSuccessResult,
             setRemove st.2.2 n)
          else st) st).1).map (fun d => d.name)) = st.1.map (fun d => d.name) := by
  intro ns
  induction ns with
  | nil =>
    intro st
    rfl
  | cons n ns' ih =>
    intro st
    rw [List.foldl_cons]
    by_cases hg : st.1.any (fun d => d.name == n) = true
    · rw [if_pos hg, ih]
      exact updateDecl_names st.1 n _ (fun d => rfl)
    · rw [if_neg hg]
      exact ih st

/-- Full behaviour of the marking fold when the target `L` heads the list of
names to mark and is present among the declarations. -/
theorem st10_cons_props (L : String) (ns : List String)
    (st : List Decl × List (String × CompilationResult) × List String)
    (hin : L ∈ st.1.map (fun d => d.name)) :
    ((∀ d ∈ (((L :: ns).foldl (fun (st : List Decl × List (String × CompilationResult) ×
            List String) n =>
          if st.1.any (fun d => d.name == n) then
            (updateDecl st.1 n (fun d => { d with was_fixed := true, is_verified := true }),
             alistInsert st.2.1 n lightweightSuccessResult,
             setRemove st.2.2 n)
          else st) st).1), d.name = L → d.was_fixed = true ∧ d.is_verified = true) ∧
     alistFind ((L :: ns).foldl (fun (st : List Decl × List (String × CompilationResult) ×
            List String) n =>
          if st.1.any (fun d => d.name == n) then
            (updateDecl st.1 n (fun d => { d with was_fixed := true, is_verified := true }),
             alistInsert st.2.1 n lightweightSuccessResult,
             setRemove st.2.2 n)
          else st) st).2.1 L = some lightweightSuccessResult ∧
     L ∉ ((L :: ns).foldl (fun (st : List Decl × List (String × CompilationResult) ×
            List String) n =>
          if st.1.any (fun d => d.name == n) then
            (updateDecl st.1 n (fun d => { d with was_fixed := true, is_verified := true }),
             alistInsert st.2.1 n lightweightSuccessResult,
             setRemove st.2.2 n)
          else st) st).2.2) := by
  obtain ⟨e0, he0, hn0⟩ := List.mem_map.mp hin
  have hany : st.1.any (fun d => d.name == L) = true :=
    List.any_eq_true.mpr ⟨e0, he0, by simp [hn0]⟩
  rw [List.foldl_cons, if_pos hany]
  refine st10_fold_inv L ns _ ?_ ?_ ?_
  · exact marked_updateDecl_self L st.1
  · exact alistFind_insert_self _ _ _
  · exact not_mem_setRemove_self _ _

/-- **C4.**  Corrected form: when `fix_lemma` actually splices (the target
is a known declaration, a subproblem is cached for it, and the fixed code
contains a declaration of the target's name), then `fix_history[L]` is
recorded; and provided a declaration named `L` still exists after the fix
(the renaming regex can destroy dotted names, see the counterexample), that
declaration is flagged `was_fixed` and `is_verified`, the recorded
compilation result for `L` is the complete lightweight success, and `L` is
no longer in `error_declarations`. -/
theorem c4_amended (pa : ProofAnalysis) (L fixed : String)
    (oi : Decl) (hoi : dictFind pa.declarations L = some oi)
    (cached : String × List String) (hc : oi.original_subproblem = some cached)
    (hne : (cached.1 == "") = false)
    (tfd : FixedDecl)
    (htf : (extractFixedDecls (splitNl fixed)).find? (fun d => d.name == L) = some tfd)
    (d' : Decl) (hd' : d' ∈ (fix_lemma pa L fixed).1.declarations) (hname : d'.name = L) :
    (∃ fr, alistFind (fix_lemma pa L fixed).1.fix_history L = some fr) ∧
    (d'.was_fixed = true ∧ d'.is_verified = true) ∧
    (∃ r, alistFind (fix_lemma pa L fixed).1.lemma_compilation_results L = some r ∧
      r.complete = true) ∧
    L ∉ (fix_lemma pa L fixed).1.error_declarations := by
  have hne' : ¬((cached.1 == "") = true) := by
    rw [hne]
    exact Bool.false_ne_true
  simp only [fix_lemma, hoi, hc, if_neg hne', htf, cache_subproblems] at hd' ⊢
  have h1 := List.mem_map_of_mem flagsD hd'
  rw [map_flags_pres] at h1
  swap
  · intro d
    split <;> rfl
  rw [foldl_update_flags] at h1
  swap
  · intro ds b
    exact ite_update_flags _ _ _ _ (fun d => rfl)
  rw [ite_update_flags] at h1
  swap
  · intro d
    rfl
  obtain ⟨e, he, hfe⟩ := List.mem_map.mp h1
  have hen : e.name = d'.name := congrArg Prod.fst hfe
  rw [hname] at hen
  have hwf : e.was_fixed = d'.was_fixed := congrArg (fun p => p.2.1) hfe
  have hiv : e.is_verified = d'.is_verified := congrArg (fun p => p.2.2) hfe
  have h4 := List.mem_map_of_mem (fun d : Decl => d.name) he
  rw [show (fun d : Decl => d.name) e = L from hen] at h4
  rw [st10_fold_names] at h4
  refine ⟨⟨_, alistFind_insert_self _ _ _⟩, ?_, ?_, ?_⟩
  · have hm := (st10_cons_props L _ _ h4).1 e he hen
    constructor
    · rw [← hwf]
      exact hm.1
    · rw [← hiv]
      exact hm.2
  · exact ⟨lightweightSuccessResult, (st10_cons_props L _ _ h4).2.1, rfl⟩
  · exact (st10_cons_props L _ _ h4).2.2

theorem c4_witness :
    ∃ d' ∈ (fix_lemma c5wpa "main" c5wfixed).1.declarations,
      d'.name = "main" ∧
      ((∃ fr, alistFind (fix_lemma c5wpa "main" c5wfixed).1.fix_history "main" = some fr) ∧
       (d'.was_fixed = true ∧ d'.is_verified = true) ∧
       (∃ r, alistFind (fix_lemma c5wpa "main" c5wfixed).1.lemma_compilation_results "main" =
         some r ∧ r.complete = true) ∧
       "main" ∉ (fix_lemma c5wpa "main" c5wfixed).1.error_declarations) := by
  have h1 : (dictFind c5wpa.declarations "main").isSome = true := by decide
  obtain ⟨oi, hoi⟩ := Option.isSome_iff_exists.mp h1
  have h2 : ((dictFind c5wpa.declarations "main").bind
      (fun oi => oi.original_subproblem)).isSome = true := by decide
  rw [hoi] at h2
  obtain ⟨cached, hc0⟩ := Option.isSome_iff_exists.mp h2
  have hc : oi.original_subproblem = some cached := hc0
  have h5 : ((dictFind c5wpa.declarations "main").bind
      (fun oi => oi.original_subproblem)).map (fun c => c.1 == "") = some false := by decide
  rw [hoi] at h5
  have h6 : (oi.original_subproblem).map (fun c => c.1 == "") = some false := h5
  rw [hc] at h6
  have hne : (cached.1 == "") = false := Option.some.inj h6
  have h7 : ((extractFixedDecls (splitNl c5wfixed)).find?
      (fun d => d.name == "main")).isSome = true := by decide
  obtain ⟨tfd, htf⟩ := Option.isSome_iff_exists.mp h7
  have h8 : ∃ d ∈ (fix_lemma c5wpa "main" c5wfixed).1.declarations, d.name = "main" := by
    decide
  obtain ⟨d', hd', hdn⟩ := h8
  exact ⟨d', hd', hdn,
    c4_amended c5wpa "main" c5wfixed oi hoi cached hc hne tfd htf d' hd' hdn⟩

/-- **C4** (counterexample).  On `c4src` the fix of `foo.bar` introduces the
colliding helper `foo`, which is renamed to `foo_1`; the whole-word regex
rewrite also hits the prefix of the dotted name `foo.bar` inside the
replacement, so after the splice no declaration named `foo.bar` exists any
more: it is not flagged, its recorded result is still the original failure,
and it stays in `error_declarations` (only `fix_history` is updated). -/
theorem c4_counterexample :
    dictFind c4pa.declarations "foo.bar" ≠ none ∧
    ((extractFixedDecls (splitNl c4fixed)).find? (fun d => d.name == "foo.bar")).isSome
      = true ∧
    (fix_lemma c4pa "foo.bar" c4fixed).2 =
      .fixed "lemma foo_1 : True := trivial\n\nlemma foo_1.bar : True := foo_1"
        [("foo", "foo_1")] ∧
    dictFind (fix_lemma c4pa "foo.bar" c4fixed).1.declarations "foo.bar" = none ∧
    "foo.bar" ∈ (fix_lemma c4pa "foo.bar" c4fixed).1.error_declarations ∧
    alistFind (fix_lemma c4pa "foo.bar" c4fixed).1.lemma_compilation_results "foo.bar" =
      some failRecord := by
  refine ⟨?_, ?_, ?_, ?_, ?_, ?_⟩ <;> decide

/-! ## Claim C2 -/

/-- The context/facts fold of `_construct_subproblem_internal`, characterised
as a pair of `filterMap`s: defs go to the context, axiom-form dependencies go
to the facts list. -/
theorem c2_fold (pa : ProofAnalysis) (L : String) (pd : List String) :
    ∀ (ds : List Decl) (acc : List String × List String),
      (ds.foldl (fun (acc : List String × List String) info =>
          if info.name == L then acc
          else if info.kind == .dfn then (acc.1 ++ [info.full_text], acc.2)
          else if info.kind == .axm && pd.contains info.name then
            (acc.1, acc.2 ++ [info.full_text])
          else if (info.kind == .lem || info.kind == .thm) && pd.contains info.name then
            (if shouldInclude pa info.name then (acc.1, acc.2 ++ [toAxiomForm info.full_text])
             else acc)
          else acc) acc) =
      (acc.1 ++ ds.filterMap (fun d =>
          if d.name ≠ L ∧ d.kind = .dfn then some d.full_text else none),
        acc.2 ++ ds.filterMap (fun d =>
          if d.name = L then none
          else if d.kind = .axm ∧ d.name ∈ pd then some d.full_text
          else if (d.kind = .lem ∨ d.kind = .thm) ∧ d.name ∈ pd ∧
              shouldInclude pa d.name = true then
            some (toAxiomForm d.full_text)
          else none)) := by
  intro ds
  induction ds with
  | nil =>
    intro acc
    simp
  | cons d ds' ih =>
    intro acc
    rw [List.foldl_cons, ih, List.filterMap_cons, List.filterMap_cons]
    by_cases hL : d.name = L
    · simp [hL]
    · by_cases hmem : d.name ∈ pd <;>
        cases hk : d.kind <;>
        by_cases hsi : shouldInclude pa d.name = true <;>
        simp [hL, hk, hmem, hsi, List.append_assoc]

/-- **C2.**  Corrected form: the subproblem code returned by
`_construct_subproblem_internal` is the header, then the `def` context
declarations only, then the sorry-target; the axiom-form dependencies
(axioms, and includable lemmas/theorems named in the proof body) are
returned separately in the facts list rather than inlined in the code. -/
theorem c2_amended (pa : ProofAnalysis) (L : String) (sp : String × List String)
    (h : construct_subproblem_internal pa L = some sp) :
    (∃ target, dictFind pa.declarations L = some target ∧
      sp.1 = pa.header ++ "\n" ++ joinSep "\n\n" (specSubproblemContext pa L) ++ "\n" ++
        specSorryTarget target.full_text) ∧
    sp.2 = specSubproblemFacts pa L := by
  cases hf : dictFind pa.declarations L with
  | none =>
    have h0 : construct_subproblem_internal pa L = none := by
      unfold construct_subproblem_internal
      rw [hf]
    rw [h0] at h
    cases h
  | some target =>
    have h0 : construct_subproblem_internal pa L =
        (if !(target.kind == DeclKind.lem || target.kind == DeclKind.thm) then none
         else
          some (pa.header ++ "\n" ++ joinSep "\n\n"
              ((sortByStart pa.declarations).foldl
                (fun (acc : List String × List String) info =>
                  if info.name == L then acc
                  else if info.kind == .dfn then (acc.1 ++ [info.full_text], acc.2)
                  else if info.kind == .axm &&
                      (get_proof_dependencies pa L).contains info.name then
                    (acc.1, acc.2 ++ [info.full_text])
                  else if (info.kind == .lem || info.kind == .thm) &&
                      (get_proof_dependencies pa L).contains info.name then
                    (if shouldInclude pa info.name then
                      (acc.1, acc.2 ++ [toAxiomForm info.full_text])
                     else acc)
                  else acc) ([], [])).1 ++ "\n" ++
              specSorryTarget target.full_text,
            ((sortByStart pa.declarations).foldl
                (fun (acc : List String × List String) info =>
                  if info.name == L then acc
                  else if info.kind == .dfn then (acc.1 ++ [info.full_text], acc.2)
                  else if info.kind == .axm &&
                      (get_proof_dependencies pa L).contains info.name then
                    (acc.1, acc.2 ++ [info.full_text])
                  else if (info.kind == .lem || info.kind == .thm) &&
                      (get_proof_dependencies pa L).contains info.name then
                    (if shouldInclude pa info.name then
                      (acc.1, acc.2 ++ [toAxiomForm info.full_text])
                     else acc)
                  else acc) ([], [])).2)) := by
      unfold construct_subproblem_internal
      rw [hf]
      rfl
    rw [h0] at h
    by_cases hk : (!(target.kind == DeclKind.lem || target.kind == DeclKind.thm)) = true
    · rw [if_pos hk] at h
      cases h
    · rw [if_neg hk] at h
      rw [c2_fold pa L (get_proof_dependencies pa L) (sortByStart pa.declarations) ([], [])]
        at h
      have hx := Option.some.inj h
      rw [← hx]
      refine ⟨⟨target, rfl, ?_⟩, ?_⟩
      · rfl
      · rfl

theorem c2_witness :
    construct_subproblem_internal c2pa "T" =
      some ("import Mathlib\ndef d1 : Nat := 3\ntheorem T : True := by sorry",
        ["axiom ax1 : True"]) ∧
    (∃ target, dictFind c2pa.declarations "T" = some target ∧
      "import Mathlib\ndef d1 : Nat := 3\ntheorem T : True := by sorry" =
        c2pa.header ++ "\n" ++ joinSep "\n\n" (specSubproblemContext c2pa "T") ++ "\n" ++
          specSorryTarget target.full_text) ∧
    ["axiom ax1 : True"] = specSubproblemFacts c2pa "T" := by
  have h : construct_subproblem_internal c2pa "T" =
      some ("import Mathlib\ndef d1 : Nat := 3\ntheorem T : True := by sorry",
        ["axiom ax1 : True"]) := by decide
  have h2 := c2_amended c2pa "T" _ h
  exact ⟨h, h2.1, h2.2⟩

/-- **C2** (counterexample).  On `c2src`, the axiom `ax1` occurs in the
proof body of `T`, yet the subproblem code built for `T` contains no
axiom-form rendering of it at all — the axiom text only appears in the
facts list. -/
theorem c2_counterexample :
    construct_subproblem c2pa "T" =
      some ("import Mathlib\ndef d1 : Nat := 3\ntheorem T : True := by sorry",
        ["axiom ax1 : True"]) ∧
    "ax1" ∈ get_proof_dependencies c2pa "T" ∧
    containsSub "axiom"
      "import Mathlib\ndef d1 : Nat := 3\ntheorem T : True := by sorry" = false := by
  refine ⟨?_, ?_, ?_⟩ <;> decide

/-! ## Claim C8 -/

/-- **C8.**  Whichever branch of `process_output` applies (last `lean4`
fence, last `lean` fence, or the raw output), if the candidate it extracts
contains `apply?`, `exact?`, `admit` or `axiom` (in particular if it
introduces a new axiom), the candidate is rejected and the original
problem statement is returned unchanged — by both the inference handler
and the revision handler, whose `process_output` bodies coincide. -/
theorem c8_output_rejection (output statement : String) (facts : Option (List String))
    (h : contains4 (extractCandidate output statement) = true) :
    InferenceHandler.process_output output statement facts = statement ∧
    RevisionHandler.process_output output statement facts = statement := by
  have hp : process_output output statement facts = statement := by
    unfold extractCandidate at h
    unfold process_output processBranch
    by_cases h4 : (fencedMatches "lean4" output).isEmpty
    · by_cases h1 : (fencedMatches "lean" output).isEmpty
      · simp only [h4, h1, Bool.not_true, Bool.false_eq_true, if_false] at h ⊢
        rw [if_pos h]
      · simp only [h4, h1, Bool.not_true, Bool.not_false, Bool.false_eq_true,
          if_false, if_true] at h ⊢
        rw [if_pos h]
    · simp only [h4, Bool.not_true, Bool.not_false, if_true] at h ⊢
      rw [if_pos h]
  exact ⟨hp, hp⟩

theorem c8_witness :
    contains4 (extractCandidate "```lean4\ntheorem w1 : True := by exact?\n```"
        "theorem w1 : True := by sorry") = true ∧
    InferenceHandler.process_output "```lean4\ntheorem w1 : True := by exact?\n```"
        "theorem w1 : True := by sorry" none = "theorem w1 : True := by sorry" := by
  constructor
  · decide
  · exact (c8_output_rejection _ _ none (by decide)).1

theorem c3_witness :
    ((⟨3, 1, "b"⟩ : InfTask) ∈ c3q ∧ (⟨3, 2, "c"⟩ : InfTask) ∈ c3q ∧
      keyLT ⟨3, 1, "b"⟩ ⟨3, 2, "c"⟩ = true) ∧
    ((∃ i, (dispatchOrder c3q).get? i = some ⟨3, 1, "b"⟩) ∧
      (∃ j, (dispatchOrder c3q).get? j = some ⟨3, 2, "c"⟩) ∧
      (∀ i j, (dispatchOrder c3q).get? i = some ⟨3, 1, "b"⟩ →
        (dispatchOrder c3q).get? j = some ⟨3, 2, "c"⟩ → i < j)) := by
  constructor
  · exact ⟨by decide, by decide, by decide⟩
  · exact c3_priority_dispatch c3q _ _ (by decide) (by decide) (by decide)

end TestTime
